import Mathlib

/-!
Verification of the osmtools pbf extraction engine (`src/pbfextractor/pbf.rs`,
`src/pbfextractor/metrics.rs`) against its natural-language specification.

The Rust code is shallowly embedded: `f64` is modelled by `F64` (a rational
finite part plus the two infinities and NaN; rounding and overflow of finite
arithmetic are not modelled), `Vec<T>` by `List`, `BTreeMap<String, usize>` by
a key-sorted association list, and every Rust panic by an `Option` result
(`none` means the process aborts).
-/

namespace Osmtools

/-- Model of an IEEE double as used by the extractor: a finite value (as a
rational -- rounding and overflow of finite arithmetic are not modelled),
positive or negative infinity, or NaN. The sign of zero is not tracked. -/
inductive F64 where
  | fin (q : ℚ)
  | inf
  | neginf
  | nan
deriving DecidableEq

namespace F64

/-- Model of Rust `f64::partial_cmp`: `none` iff either operand is NaN,
otherwise the usual total order with `neginf < fin _ < inf`. -/
def pcmp : F64 → F64 → Option Ordering
  | nan, _ => none
  | fin _, nan => none
  | inf, nan => none
  | neginf, nan => none
  | fin a, fin b => some (if a < b then .lt else if a = b then .eq else .gt)
  | fin _, inf => some .lt
  | fin _, neginf => some .gt
  | inf, fin _ => some .gt
  | inf, inf => some .eq
  | inf, neginf => some .gt
  | neginf, fin _ => some .lt
  | neginf, inf => some .lt
  | neginf, neginf => some .eq

/-- Model of Rust `<=` on `f64`: true iff `partial_cmp` is `Less` or `Equal`
(hence always false when NaN is involved). -/
def le (a b : F64) : Bool :=
  match pcmp a b with
  | some .lt => true
  | some .eq => true
  | _ => false

/-- Model of Rust `==` on `f64`: true iff `partial_cmp` is `Equal`
(hence `nan == nan` is false). -/
def beq (a b : F64) : Bool :=
  decide (pcmp a b = some Ordering.eq)

/-- Model of `f64::is_finite`. -/
def isFinite : F64 → Bool
  | fin _ => true
  | _ => false

/-- Model of `f64` NaN-ness. -/
def isNan : F64 → Bool
  | nan => true
  | _ => false

/-- Model of IEEE division on `F64` (signed zero is not tracked: division of a
nonzero finite value by zero uses the numerator's sign; `0 / 0` is NaN). -/
def div : F64 → F64 → F64
  | nan, _ => nan
  | fin _, nan => nan
  | inf, nan => nan
  | neginf, nan => nan
  | fin a, fin b =>
    if b = 0 then (if a = 0 then nan else if 0 < a then inf else neginf)
    else fin (a / b)
  | fin _, inf => fin 0
  | fin _, neginf => fin 0
  | inf, fin b => if b < 0 then neginf else inf
  | neginf, fin b => if b < 0 then inf else neginf
  | inf, inf => nan
  | inf, neginf => nan
  | neginf, inf => nan
  | neginf, neginf => nan

end F64

/-- Model of `pbf.rs` `struct Edge { source: NodeId, dest: NodeId, costs: Vec<f64> }`. -/
structure Edge where
  source : Nat
  dest : Nat
  costs : List F64
deriving DecidableEq

namespace Edge

/-- Model of `Edge::new`: the cost vector starts as `vec![0.0; cost_count]`. -/
def new (source dest : Nat) (costCount : Nat) : Edge :=
  { source := source, dest := dest, costs := List.replicate costCount (F64.fin 0) }

end Edge

/-- Componentwise `<=` of two cost vectors, as in `delete_dominated_edges`:
`first.costs.iter().zip(second.costs.iter()).all(|(f, s)| f <= s)`
(zip truncates to the shorter vector). -/
def costsAllLe (as bs : List F64) : Bool :=
  (as.zip bs).all fun p => F64.le p.1 p.2

/-- Equality of `(source, dest)`, the endpoint test of `delete_dominated_edges`. -/
def sameEnds (a b : Edge) : Bool :=
  a.source == b.source && a.dest == b.dest

/-- The removal test of `delete_dominated_edges`: same endpoints and the
first cost vector componentwise `<=` the second. -/
def dominates (a b : Edge) : Bool :=
  sameEnds a b && costsAllLe a.costs b.costs

/-- Scan step of `delete_dominated_edges`: the source marks index `i` when
`edges[i-1]` dominates `edges[i]` (predecessor taken from the original
vector, whether or not it was itself marked) and then filters the marked
indices out; this recursion carries that original predecessor `prev`. -/
def dominatedScan (prev : Edge) : List Edge → List Edge
  | [] => []
  | f :: rest =>
    if dominates prev f then dominatedScan f rest
    else f :: dominatedScan f rest

/-- Model of `Loader::delete_dominated_edges`. -/
def deleteDominatedEdges : List Edge → List Edge
  | [] => []
  | e :: rest => e :: dominatedScan e rest

/-- Three-way comparison of `usize`, as `usize::cmp` in the sort closure. -/
def cmpNat (a b : Nat) : Ordering :=
  if a < b then .lt else if a = b then .eq else .gt

/-- The cost-vector part of the sort closure in `delete_duplicate_edges`:
walk the zipped vectors, take `partial_cmp(..).unwrap_or(Equal)` and stop at
the first non-`Equal` answer. -/
def costsCmp : List F64 → List F64 → Ordering
  | [], _ => .eq
  | _ :: _, [] => .eq
  | a :: as, b :: bs =>
    match (F64.pcmp a b).getD .eq with
    | .eq => costsCmp as bs
    | o => o

/-- The full comparator of `delete_duplicate_edges`: by `source`, then
`dest`, then the cost vectors lexicographically. -/
def edgeCmp (e1 e2 : Edge) : Ordering :=
  match cmpNat e1.source e2.source with
  | .eq =>
    match cmpNat e1.dest e2.dest with
    | .eq => costsCmp e1.costs e2.costs
    | o => o
  | o => o

/-- Non-strict order induced by `edgeCmp`, used to run the sort. -/
def edgeLe (a b : Edge) : Bool :=
  decide (edgeCmp a b ≠ Ordering.gt)

/-- Stable insertion of one edge into an already sorted list. -/
def sortInsert (x : Edge) : List Edge → List Edge
  | [] => [x]
  | b :: t => if edgeLe x b then x :: b :: t else b :: sortInsert x t

/-- Model of `edges.sort_by(..)`: Rust's sort is stable, and on a comparator
that is a total preorder every stable sort returns the same list, so a stable
insertion sort is a faithful model (for an inconsistent comparator, e.g. in
the presence of NaN, Rust leaves the order unspecified and this picks one
allowed outcome). -/
def sortEdges : List Edge → List Edge
  | [] => []
  | x :: xs => sortInsert x (sortEdges xs)

/-- Model of `impl PartialEq for Edge`: equal `source`, `dest`, and
pointwise `==` of the zipped cost vectors (zip truncates). -/
def edgeBeq (a b : Edge) : Bool :=
  a.source == b.source && a.dest == b.dest &&
    ((a.costs.zip b.costs).all fun p => F64.beq p.1 p.2)

/-- Scan of `Vec::dedup`: drop each element equal (by `PartialEq`) to the
last retained element `a`. -/
def dedupScan (a : Edge) : List Edge → List Edge
  | [] => []
  | b :: rest => if edgeBeq a b then dedupScan a rest else b :: dedupScan b rest

/-- Model of `Vec::dedup`. -/
def dedupEdges : List Edge → List Edge
  | [] => []
  | a :: rest => a :: dedupScan a rest

/-- Model of `Loader::delete_duplicate_edges`: sort by
`(source, dest, costs lexicographic)`, then remove consecutive duplicates. -/
def deleteDuplicateEdges (edges : List Edge) : List Edge :=
  dedupEdges (sortEdges edges)

/-- Model of `osmpbfreader::Tags`: key/value pairs, looked up by key. -/
abbrev Tags : Type := List (String × String)

/-- Tag lookup, `tags.get(key)`. -/
def getTag (tags : Tags) (k : String) : Option String :=
  (List.find? (fun p => p.1 == k) tags).map (·.2)

/-- Model of `metrics.rs` `MetricError`. -/
inductive MetricErr where
  | unknownMetric
  | nonFiniteTime (dist speed : F64)
deriving DecidableEq

/-- Model of `MetricIndices = BTreeMap<String, usize>`: an association list
kept sorted by key. -/
abbrev MetricIndices : Type := List (String × Nat)

/-- Map lookup, `map.get(&key)`. -/
def btGet? (m : MetricIndices) (k : String) : Option Nat :=
  (List.find? (fun p => p.1 == k) m).map (·.2)

/-- Lexicographic strict order on character lists (by code point), the
order `BTreeMap<String, _>` keys are kept in: UTF-8 byte order coincides
with code-point order. -/
def charListLt : List Char → List Char → Bool
  | [], [] => false
  | [], _ :: _ => true
  | _ :: _, [] => false
  | a :: as, b :: bs =>
    if a.toNat < b.toNat then true
    else if b.toNat < a.toNat then false
    else charListLt as bs

/-- Strict key order of the `BTreeMap`. -/
def strLt (a b : String) : Bool :=
  charListLt a.data b.data

/-- Model of `BTreeMap::insert`: place the binding at its key-sorted position,
replacing an existing binding for the same key. -/
def btInsert (m : MetricIndices) (k : String) (v : Nat) : MetricIndices :=
  match m with
  | [] => [(k, v)]
  | (k1, v1) :: rest =>
    if strLt k k1 then (k, v) :: (k1, v1) :: rest
    else if k == k1 then (k, v) :: rest
    else (k1, v1) :: btInsert rest k v

/-- Model of the index assignment in `OsmLoaderBuilder::build`: one shared
counter runs over the tag metrics, then the node metrics, then the cost
metrics, inserting `(name, index)` into the `BTreeMap`. -/
def buildMetricIndices (tagNames nodeNames costNames : List String) : MetricIndices :=
  ((tagNames ++ nodeNames ++ costNames).enum).foldl
    (fun m p => btInsert m p.2 p.1) []

/-- Model of `pbf.rs` `struct Node` (latitude/longitude as exact rationals;
they are only passed through to the node metrics here). -/
structure Node where
  osm_id : Nat
  lat : ℚ
  long : ℚ
deriving DecidableEq

/-- Model of an OSM way: ordered node references plus tags. -/
structure Way where
  nodes : List Nat
  tags : Tags

/-- Model of the relevant `Loader` configuration: the edge filter and the
three metric families; each metric is its registered name together with its
`calc`. Node metrics close over the projection; a cost metric's `calc` may
also panic (indexing the cost slice), hence its extra `Option` layer. -/
structure LoaderModel where
  edgeFilterInvalid : Tags → Bool
  tagMetrics : List (String × (Tags → Except MetricErr F64))
  nodeMetrics : List (String × (Node → Node → Except MetricErr F64))
  costMetrics : List (String × (List F64 → MetricIndices → Option (Except MetricErr F64)))
  internalMetrics : List String

/-- The loader's `metrics_indices`, built as in `OsmLoaderBuilder::build`. -/
def LoaderModel.metricsIndices (l : LoaderModel) : MetricIndices :=
  buildMetricIndices (l.tagMetrics.map (·.1)) (l.nodeMetrics.map (·.1))
    (l.costMetrics.map (·.1))

/-- Model of `Loader::internal_metric_count`: the total number of registered
metrics. -/
def LoaderModel.internalMetricCount (l : LoaderModel) : Nat :=
  l.nodeMetrics.length + l.costMetrics.length + l.tagMetrics.length

/-- Model of `Loader::is_one_way`: explicit `oneway=yes/true` forces one-way,
explicit `no/false` forces bidirectional, anything else falls back to the
`highway=motorway` / `junction=roundabout|circular` heuristic. -/
def isOneWay (tags : Tags) : Bool :=
  match getTag tags "oneway" with
  | some "yes" => true
  | some "true" => true
  | some "no" => false
  | some "false" => false
  | _ =>
    ((getTag tags "highway").map (fun h => h == "motorway")).getD false ||
      ((getTag tags "junction").map
        (fun j => j == "roundabout" || j == "circular")).getD false

/-- Modelled from the spec: the `reverse_edges` loader flag (the variant of
`OsmLoaderBuilder` carrying it is not under `src/`, only its callers are).
Per the spec the flag makes the loader "always treat ways as bidirectional,
overriding the heuristic", so it forces the heuristic branch to
bidirectional while explicit `oneway` tags keep their meaning. -/
def isOneWayConfigured (alwaysBidirectional : Bool) (tags : Tags) : Bool :=
  match getTag tags "oneway" with
  | some "yes" => true
  | some "true" => true
  | some "no" => false
  | some "false" => false
  | _ =>
    if alwaysBidirectional then false
    else
      ((getTag tags "highway").map (fun h => h == "motorway")).getD false ||
        ((getTag tags "junction").map
          (fun j => j == "roundabout" || j == "circular")).getD false

/-- Sequential `Option`-valued map over a list (the `collect`-style
traversals of the Rust code: the first failure aborts). -/
def omapM {α β : Type} (f : α → Option β) : List α → Option (List β)
  | [] => some []
  | x :: xs => do
    let y ← f x
    let ys ← omapM f xs
    pure (y :: ys)

/-- The in-place writes `edge.costs[i] = t` of a list of `(index, value)`
pairs; indexing out of bounds is a panic (`none`). -/
def applyWrites (writes : List (Nat × F64)) (costs : List F64) : Option (List F64) :=
  writes.foldlM
    (fun cs p => if p.1 < cs.length then some (cs.set p.1 p.2) else none) costs

/-- One raw edge of `process_way`: `Edge::new` followed by the tag-cost
writes. -/
def mkEdge (count : Nat) (tagCosts : List (Nat × F64)) (s d : Nat) : Option Edge :=
  (applyWrites tagCosts (Edge.new s d count).costs).map
    (fun cs => { source := s, dest := d, costs := cs })

/-- One entry of the `tag_costs` vector of `process_way`:
`(metrics_indices[&t.name()], t.calc(&w.tags).unwrap())`; a missing index or
an `Err` from `calc` is a panic (`none`). -/
def tagCostOf (l : LoaderModel) (tags : Tags)
    (t : String × (Tags → Except MetricErr F64)) : Option (Nat × F64) := do
  let i ← btGet? l.metricsIndices t.1
  match t.2 tags with
  | .ok v => some (i, v)
  | .error _ => none

/-- One loop iteration of `process_way`: the forward edge for a consecutive
node pair and, unless the way is one-way, the backward edge. -/
def segmentEdges (l : LoaderModel) (tagCosts : List (Nat × F64)) (ow : Bool)
    (p : Nat × Nat) : Option (List Edge) := do
  let e1 ← mkEdge l.internalMetricCount tagCosts p.1 p.2
  if ow then
    pure [e1]
  else do
    let e2 ← mkEdge l.internalMetricCount tagCosts p.2 p.1
    pure [e1, e2]

/-- Model of `Loader::process_way`. A filtered way yields no edges; otherwise
the tag metrics are computed once, and every consecutive node pair yields a
forward edge plus, unless the way is one-way, a backward edge. An empty node
list panics (`w.nodes[0..len - 1]` underflows) before any edge is built. The
node ids streamed to the collector are a side effect and are not modelled. -/
def processWay (l : LoaderModel) (w : Way) : Option (List Edge) :=
  if l.edgeFilterInvalid w.tags then some []
  else do
    let tagCosts ← omapM (tagCostOf l w.tags) l.tagMetrics
    match w.nodes with
    | [] => none
    | _ :: _ => do
      let packs ← omapM (segmentEdges l tagCosts (isOneWay w.tags))
        (w.nodes.zip w.nodes.tail)
      pure packs.flatten

/-- The `HashMap<OsmNodeId, (usize, &Node)>` built from the node vector by
`enumerate`: on duplicate `osm_id` the last insertion wins. -/
def nodeMap (nodes : List Node) (id : Nat) : Option (Nat × Node) :=
  (List.filter (fun p => p.2.osm_id == id) nodes.enum).getLast?

/-- The geometry-configured edge re-filtering block of `load_graph`: keep
only edges whose two endpoint ids survived the node pass. -/
def filterEdgesByNodes (nodes : List Node) (edges : List Edge) : List Edge :=
  edges.filter
    (fun e => (nodeMap nodes e.source).isSome && (nodeMap nodes e.dest).isSome)

/-- One node-metric entry of `rename_node_ids_and_calculate_node_metrics`:
`(metrics_indices[&n.name()], n.calc(source, dest, proj).unwrap())`; a
missing index or an `Err` from `calc` is a panic (`none`). -/
def nodeWriteOf (l : LoaderModel) (src dst : Node)
    (nm : String × (Node → Node → Except MetricErr F64)) : Option (Nat × F64) := do
  let i ← btGet? l.metricsIndices nm.1
  match nm.2 src dst with
  | .ok v => some (i, v)
  | .error _ => none

/-- One edge of `rename_node_ids_and_calculate_node_metrics` (continued):
look up both endpoints, then write every node metric value into its
registered slot. -/
def renameEdge (l : LoaderModel) (nodes : List Node) (e : Edge) : Option Edge := do
  let s ← nodeMap nodes e.source
  let d ← nodeMap nodes e.dest
  let writes ← omapM (nodeWriteOf l s.2 d.2) l.nodeMetrics
  let cs ← applyWrites writes e.costs
  pure { source := s.1, dest := d.1, costs := cs }

/-- Model of `Loader::rename_node_ids_and_calculate_node_metrics`. -/
def renameNodeIds (l : LoaderModel) (nodes : List Node) (edges : List Edge) :
    Option (List Edge) :=
  omapM (renameEdge l nodes) edges

/-- One iteration of the cost-metric loop of `calculate_cost_metrics`:
`metrics_indices[&c.name()]` (a panic when absent), `calc` on the current
cost vector (a panicking `calc` or an `Err` hitting `.unwrap()` aborts), and
the in-place write `e.costs[index] = value`. -/
def costMetricStep (l : LoaderModel) (cs : List F64)
    (c : String × (List F64 → MetricIndices → Option (Except MetricErr F64))) :
    Option (List F64) := do
  let i ← btGet? l.metricsIndices c.1
  let r ← c.2 cs l.metricsIndices
  match r with
  | .ok v => if i < cs.length then some (cs.set i v) else none
  | .error _ => none

/-- The cost-metric loop of `calculate_cost_metrics` on one edge: each cost
metric reads the current (partially updated) cost vector and its value is
written into its registered slot. -/
def applyCostMetricsToEdge (l : LoaderModel) (e : Edge) : Option Edge := do
  let cs ← l.costMetrics.foldlM (costMetricStep l) e.costs
  pure { e with costs := cs }

/-- Model of `Loader::calculate_cost_metrics`. -/
def calculateCostMetrics (l : LoaderModel) (edges : List Edge) : Option (List Edge) :=
  omapM (applyCostMetricsToEdge l) edges

/-- Model of `load_graph` from the point where both parse passes are done:
`nodes` is the retained node list (id-collected and, when a geometry is
configured, inside it), `edges` the raw way-pass output. With a geometry
configured the edges are re-filtered by endpoint survival; then ids are
renamed and node metrics computed, cost metrics computed, duplicates and
dominated edges removed. -/
def loadGraphPost (l : LoaderModel) (geometryConfigured : Bool)
    (nodes : List Node) (edges : List Edge) : Option (List Node × List Edge) := do
  let edges1 := if geometryConfigured then filterEdgesByNodes nodes edges else edges
  let edges2 ← renameNodeIds l nodes edges1
  let edges3 ← calculateCostMetrics l edges2
  pure (nodes, deleteDominatedEdges (deleteDuplicateEdges edges3))

/-- Model of `Edge::costs`: walk the `BTreeMap` entries (ascending key
order), skip internal metrics, and push `self.costs[*index]` (an
out-of-bounds slot panics, `none`). -/
def costsOut (e : Edge) (indices : MetricIndices) (internalOnly : List String) :
    Option (List F64) :=
  omapM (fun p => e.costs.get? p.2)
    (List.filter (fun p => !(internalOnly.contains p.1)) indices)

/-- The `has_side_walk` computation shared by the walking and bicycle
filters: a `sidewalk` tag exists with a value other than `"no"`. -/
def hasNonNoSidewalk (tags : Tags) : Bool :=
  match getTag tags "sidewalk" with
  | some s => s != "no"
  | none => false

/-- The highway `matches!` set of `WalkingEdgeFilter::is_invalid` (note that
it contains `"motor"`), true also for an absent highway tag. -/
def walkingDisallowedHighway (tags : Tags) : Bool :=
  match getTag tags "highway" with
  | some "motorway" => true
  | some "motorway_link" => true
  | some "motor" => true
  | some "proposed" => true
  | some "construction" => true
  | some "abandoned" => true
  | some "platform" => true
  | some "raceway" => true
  | some "trunk" => true
  | some "trunk_link" => true
  | none => true
  | some _ => false

/-- Model of `WalkingEdgeFilter::is_invalid`. -/
def walkingEdgeFilterIsInvalid (tags : Tags) : Bool :=
  if getTag tags "walking" == some "no" then true
  else
    if hasNonNoSidewalk tags then false
    else walkingDisallowedHighway tags

/-- Modelled from the spec: the `units` module (`Meters`,
`KilometersPerHour`, `MetersPerSecond`, `Seconds`) is not under `src/`.
Per the spec, travel time is distance divided by the speed converted to
meters per second; km/h converts to m/s by division by 3.6. -/
def kmhToMs (v : F64) : F64 :=
  F64.div v (F64.fin (18 / 5 : ℚ))

/-- Model of `TravelTime::calc` (`metrics.rs`): resolve the two dependency
names (missing name: `UnknownMetric`), read their slots (out of bounds: a
panic, `none`), divide, and reject a non-finite result. -/
def travelTimeCalc (distName speedName : String) (costs : List F64)
    (map : MetricIndices) : Option (Except MetricErr F64) :=
  match btGet? map distName with
  | none => some (.error .unknownMetric)
  | some di =>
    match btGet? map speedName with
    | none => some (.error .unknownMetric)
    | some si =>
      match costs.get? di, costs.get? si with
      | some dist, some speed =>
        let time := F64.div dist (kmhToMs speed)
        if time.isFinite then some (.ok time)
        else some (.error (.nonFiniteTime dist speed))
      | _, _ => none

/-! ### Basic facts about the `F64` comparisons -/

theorem F64.le_fin_fin (a b : ℚ) :
    F64.le (F64.fin a) (F64.fin b) = decide (a ≤ b) := by
  by_cases h1 : a < b
  · simp [F64.le, F64.pcmp, h1, le_of_lt h1]
  · by_cases h2 : a = b
    · simp [F64.le, F64.pcmp, h1, h2]
    · have h3 : ¬ a ≤ b := fun hle => h2 (le_antisymm hle (not_lt.mp h1))
      simp [F64.le, F64.pcmp, h1, h2, h3]

theorem F64.le_trans {a b c : F64} (h1 : F64.le a b = true)
    (h2 : F64.le b c = true) : F64.le a c = true := by
  cases a <;> cases b <;> cases c <;>
    first
    | (rw [F64.le_fin_fin] at h1 h2 ⊢
       exact decide_eq_true ((of_decide_eq_true h1).trans (of_decide_eq_true h2)))
    | simp_all [F64.le, F64.pcmp]

/-! ### Dominance pruning (claim C1) -/

theorem costsAllLe_trans {n : Nat} :
    ∀ {as bs cs : List F64}, as.length = n → bs.length = n → cs.length = n →
      costsAllLe as bs = true → costsAllLe bs cs = true →
      costsAllLe as cs = true := by
  induction n with
  | zero =>
    intro as bs cs ha _ hc _ _
    rw [List.length_eq_zero] at ha hc
    subst ha; subst hc; rfl
  | succ k ih =>
    intro as bs cs ha hb hc h1 h2
    match as, bs, cs with
    | a :: as, b :: bs, c :: cs =>
      simp only [costsAllLe, List.zip_cons_cons, List.all_cons, Bool.and_eq_true] at h1 h2 ⊢
      simp only [List.length_cons, Nat.succ.injEq] at ha hb hc
      exact ⟨F64.le_trans h1.1 h2.1, ih ha hb hc h1.2 h2.2⟩

theorem sameEnds_trans {a b c : Edge} (h1 : sameEnds a b = true)
    (h2 : sameEnds b c = true) : sameEnds a c = true := by
  simp only [sameEnds, Bool.and_eq_true, beq_iff_eq] at h1 h2 ⊢
  exact ⟨h1.1.trans h2.1, h1.2.trans h2.2⟩

theorem dominates_trans {n : Nat} {a b c : Edge} (ha : a.costs.length = n)
    (hb : b.costs.length = n) (hc : c.costs.length = n)
    (h1 : dominates a b = true) (h2 : dominates b c = true) :
    dominates a c = true := by
  simp only [dominates, Bool.and_eq_true] at h1 h2 ⊢
  exact ⟨sameEnds_trans h1.1 h2.1, costsAllLe_trans ha hb hc h1.2 h2.2⟩

theorem dominatedScan_sound {n : Nat} :
    ∀ (rest : List Edge) (prev : Edge),
      (∀ e ∈ prev :: rest, e.costs.length = n) →
      ∀ e ∈ rest, e ∉ dominatedScan prev rest →
        ∃ d, (d = prev ∨ d ∈ dominatedScan prev rest) ∧ dominates d e = true := by
  intro rest
  induction rest with
  | nil => intro prev _ e he; exact absurd he (List.not_mem_nil e)
  | cons f tail ih =>
    intro prev hlen e he hout
    have hlen' : ∀ x ∈ f :: tail, x.costs.length = n := fun x hx =>
      hlen x (List.mem_cons_of_mem prev hx)
    by_cases hdom : dominates prev f = true
    · -- `f` is marked: the scan continues with predecessor `f`
      rw [dominatedScan, if_pos hdom] at hout ⊢
      rcases List.mem_cons.mp he with rfl | he'
      · exact ⟨prev, Or.inl rfl, hdom⟩
      · rcases ih f hlen' e he' hout with ⟨d, hd, hde⟩
        rcases hd with rfl | hd'
        · exact ⟨prev, Or.inl rfl,
            dominates_trans (hlen prev (List.mem_cons_self prev _))
              (hlen' d (List.mem_cons_self d _))
              (hlen' e (List.mem_cons_of_mem d he')) hdom hde⟩
        · exact ⟨d, Or.inr hd', hde⟩
    · -- `f` survives
      rw [dominatedScan, if_neg hdom] at hout ⊢
      rcases List.mem_cons.mp he with rfl | he'
      · exact absurd (List.mem_cons_self e _) hout
      · have hout' : e ∉ dominatedScan f tail := fun hmem =>
          hout (List.mem_cons_of_mem f hmem)
        rcases ih f hlen' e he' hout' with ⟨d, hd, hde⟩
        rcases hd with rfl | hd'
        · exact ⟨d, Or.inr (List.mem_cons_self d _), hde⟩
        · exact ⟨d, Or.inr (List.mem_cons_of_mem f hd'), hde⟩

/-- The input of the C1 counterexample: three edges with the same endpoints,
strictly sorted by the dedup comparator (a fixpoint of
`delete_duplicate_edges`, so this list is literally what dominance pruning
receives). -/
def c1e0 : Edge := { source := 0, dest := 1, costs := [F64.fin 1, F64.fin 1] }

/-- Second edge of the C1 counterexample (removed by the scan). -/
def c1e1 : Edge := { source := 0, dest := 1, costs := [F64.fin 1, F64.fin 5] }

/-- Third edge of the C1 counterexample (kept by the scan: `c1e1` does not
dominate it, but the surviving `c1e0` does). -/
def c1e2 : Edge := { source := 0, dest := 1, costs := [F64.fin 2, F64.fin 2] }

/-- The C1 counterexample list. -/
def c1ex : List Edge := [c1e0, c1e1, c1e2]

/-- C1, counterexample: after dominance pruning, adjacent surviving edges
sharing `(source, dest)` can still be comparable. `c1ex` is a fixpoint of
`delete_duplicate_edges` (sorted, duplicate-free), the scan removes `c1e1`
(dominated by `c1e0`) but keeps `c1e2` (compared only against the removed
`c1e1`), and the now-adjacent survivors `c1e0`, `c1e2` share endpoints with
`c1e0`'s cost vector componentwise ≤ `c1e2`'s. -/
theorem c1_counterexample :
    deleteDuplicateEdges c1ex = c1ex ∧
    ¬ (∀ i a b, (deleteDominatedEdges c1ex).get? i = some a →
        (deleteDominatedEdges c1ex).get? (i + 1) = some b →
        sameEnds a b = true →
        costsAllLe a.costs b.costs = false ∧ costsAllLe b.costs a.costs = false) := by
  refine ⟨by decide, fun h => ?_⟩
  have h2 := h 0 c1e0 c1e2 (by decide) (by decide) (by decide)
  exact absurd h2.1 (by decide)

/-- C1, amended: the pruning pass scans the sorted list, compares each edge
only to its immediate predecessor in the scanned list, and removes the
successor when both share `(source, dest)` and the predecessor's cost vector
is componentwise ≤ the successor's; consequently (for cost vectors of
uniform width) every removed edge shares `(source, dest)` with, and is
componentwise dominated by (ties included), some surviving edge — but two
adjacent surviving edges may still be comparable. -/
theorem c1_removed_edges_have_surviving_dominator (edges : List Edge) (n : Nat)
    (hlen : ∀ e ∈ edges, e.costs.length = n) :
    ∀ e ∈ edges, e ∉ deleteDominatedEdges edges →
      ∃ d ∈ deleteDominatedEdges edges, dominates d e = true := by
  cases edges with
  | nil => intro e he; exact absurd he (List.not_mem_nil e)
  | cons e0 rest =>
    intro e he hout
    rw [deleteDominatedEdges] at hout ⊢
    rcases List.mem_cons.mp he with rfl | he'
    · exact absurd (List.mem_cons_self e _) hout
    · have hout' : e ∉ dominatedScan e0 rest := fun hm =>
        hout (List.mem_cons_of_mem e0 hm)
      rcases dominatedScan_sound rest e0 hlen e he' hout' with ⟨d, hd, hde⟩
      rcases hd with rfl | hd'
      · exact ⟨d, List.mem_cons_self d _, hde⟩
      · exact ⟨d, List.mem_cons_of_mem e0 hd', hde⟩

/-- C1, witness: the amended theorem applied to `c1ex` produces a surviving
dominator for the removed edge `c1e1`. -/
theorem c1_witness :
    (∀ e ∈ c1ex, e.costs.length = 2) ∧ c1e1 ∈ c1ex ∧
      c1e1 ∉ deleteDominatedEdges c1ex ∧
      ∃ d ∈ deleteDominatedEdges c1ex, dominates d c1e1 = true :=
  ⟨by decide, by decide, by decide,
    c1_removed_edges_have_surviving_dominator c1ex 2 (by decide) c1e1
      (by decide) (by decide)⟩

/-! ### Shared lemmas about `mapM` and the in-place cost writes -/

theorem omapM_some_of_all_some {α β : Type} (f : α → Option β) :
    ∀ xs : List α, (∀ x ∈ xs, (f x).isSome) → (omapM f xs).isSome := by
  intro xs
  induction xs with
  | nil => intro _; simp [omapM]
  | cons x xs ih =>
    intro h
    rcases Option.isSome_iff_exists.mp (h x (List.mem_cons_self x xs)) with ⟨y, hy⟩
    rcases Option.isSome_iff_exists.mp
      (ih fun a ha => h a (List.mem_cons_of_mem x ha)) with ⟨ys, hys⟩
    simp [omapM, hy, hys]

theorem omapM_cons_eq_some {α β : Type} {f : α → Option β} {x : α} {xs : List α}
    {ys : List β} (h : omapM f (x :: xs) = some ys) :
    ∃ y zs, f x = some y ∧ omapM f xs = some zs ∧ ys = y :: zs := by
  rw [omapM] at h
  cases hx : f x with
  | none => rw [hx] at h; simp at h
  | some y =>
    rw [hx] at h
    cases hxs : omapM f xs with
    | none => rw [hxs] at h; simp at h
    | some zs =>
      rw [hxs] at h
      simp only [Option.bind_some, Option.pure_def, Option.bind_eq_bind,
        Option.some_bind, Option.some.injEq] at h
      exact ⟨y, zs, rfl, rfl, h.symm⟩

theorem omapM_mem {α β : Type} {f : α → Option β} :
    ∀ {xs : List α} {ys : List β}, omapM f xs = some ys →
      ∀ y ∈ ys, ∃ x ∈ xs, f x = some y := by
  intro xs
  induction xs with
  | nil =>
    intro ys h y hy
    simp [omapM] at h; subst h
    exact absurd hy (List.not_mem_nil y)
  | cons x xs ih =>
    intro ys h y hy
    rcases omapM_cons_eq_some h with ⟨z, zs, hz, hzs, rfl⟩
    rcases List.mem_cons.mp hy with rfl | hy2
    · exact ⟨x, List.mem_cons_self x xs, hz⟩
    · rcases ih hzs y hy2 with ⟨a, ha, hfa⟩
      exact ⟨a, List.mem_cons_of_mem x ha, hfa⟩

theorem omapM_length {α β : Type} {f : α → Option β} :
    ∀ {xs : List α} {ys : List β}, omapM f xs = some ys →
      ys.length = xs.length := by
  intro xs
  induction xs with
  | nil => intro ys h; simp [omapM] at h; subst h; rfl
  | cons x xs ih =>
    intro ys h
    rcases omapM_cons_eq_some h with ⟨z, zs, _, hzs, rfl⟩
    simp [ih hzs]

theorem applyWrites_length :
    ∀ {writes : List (Nat × F64)} {cs cs2 : List F64},
      applyWrites writes cs = some cs2 → cs2.length = cs.length := by
  intro writes
  induction writes with
  | nil => intro cs cs2 h; simp [applyWrites] at h; subst h; rfl
  | cons w ws ih =>
    intro cs cs2 h
    rw [applyWrites, List.foldlM_cons] at h
    by_cases hw : w.1 < cs.length
    · rw [if_pos hw] at h
      have := @ih (cs.set w.1 w.2) cs2 h
      simpa using this
    · rw [if_neg hw] at h; simp at h

theorem applyWrites_isSome :
    ∀ (writes : List (Nat × F64)) (cs : List F64),
      (∀ p ∈ writes, p.1 < cs.length) → (applyWrites writes cs).isSome := by
  intro writes
  induction writes with
  | nil => intro cs _; simp [applyWrites]
  | cons w ws ih =>
    intro cs h
    rw [applyWrites, List.foldlM_cons,
      if_pos (h w (List.mem_cons_self w ws))]
    have := ih (cs.set w.1 w.2) fun p hp => by
      rw [List.length_set]; exact h p (List.mem_cons_of_mem w hp)
    simpa [applyWrites] using this

/-! ### Way processing (claims C4 and C10) -/

theorem omapM_flatten_length {α β : Type} (k : Nat) (f : α → Option (List β))
    (hf : ∀ a ls, f a = some ls → ls.length = k) :
    ∀ {xs : List α} {packs : List (List β)}, omapM f xs = some packs →
      packs.flatten.length = k * xs.length := by
  intro xs
  induction xs with
  | nil =>
    intro packs h
    simp [omapM] at h; subst h; simp
  | cons x xs ih =>
    intro packs h
    rcases omapM_cons_eq_some h with ⟨y, zs, hy, hzs, rfl⟩
    simp only [List.flatten_cons, List.length_append, hf x y hy, ih hzs,
      List.length_cons]
    ring

theorem segmentEdges_length (l : LoaderModel) (tagCosts : List (Nat × F64))
    (ow : Bool) (p : Nat × Nat) (ls : List Edge)
    (h : segmentEdges l tagCosts ow p = some ls) :
    ls.length = if ow then 1 else 2 := by
  rw [segmentEdges] at h
  cases h1 : mkEdge l.internalMetricCount tagCosts p.1 p.2 with
  | none => rw [h1] at h; simp at h
  | some e1 =>
    rw [h1] at h
    cases ow with
    | true =>
      simp only [Option.bind_some, if_true, Option.pure_def,
        Option.bind_eq_bind, Option.some_bind, Option.some.injEq] at h
      simp [← h]
    | false =>
      simp only [Option.bind_some, if_false, Option.pure_def,
        Option.bind_eq_bind, Option.some_bind, Bool.false_eq_true] at h
      cases h2 : mkEdge l.internalMetricCount tagCosts p.2 p.1 with
      | none => rw [h2] at h; simp at h
      | some e2 =>
        rw [h2] at h
        simp only [Option.some_bind, Option.some.injEq] at h
        simp [← h]

/-- C4: an accepted way with `n ≥ 1` node references produces exactly
`n − 1` raw edges if one-way and `2·(n − 1)` otherwise — one per consecutive
node pair per required direction. -/
theorem c4_raw_edge_count (l : LoaderModel) (w : Way) (es : List Edge)
    (hacc : l.edgeFilterInvalid w.tags = false)
    (hn : 1 ≤ w.nodes.length)
    (h : processWay l w = some es) :
    es.length = (if isOneWay w.tags then 1 else 2) * (w.nodes.length - 1) := by
  rw [processWay, if_neg (by simp [hacc])] at h
  cases htc : omapM (tagCostOf l w.tags) l.tagMetrics with
  | none => rw [htc] at h; simp at h
  | some tagCosts =>
    rw [htc] at h
    simp only [Option.bind_some, Option.bind_eq_bind, Option.some_bind] at h
    cases hw : w.nodes with
    | nil => rw [hw] at hn; simp at hn
    | cons x xs =>
      rw [hw] at h
      simp only [Option.bind_eq_bind, List.tail_cons] at h
      cases hpk : omapM (segmentEdges l tagCosts (isOneWay w.tags))
          ((x :: xs).zip xs) with
      | none => rw [hpk] at h; simp at h
      | some packs =>
        rw [hpk] at h
        simp only [Option.pure_def, Option.some_bind, Option.some.injEq] at h
        subst h
        have hflat := omapM_flatten_length (if isOneWay w.tags then 1 else 2)
          (segmentEdges l tagCosts (isOneWay w.tags))
          (fun a ls hls => segmentEdges_length l tagCosts (isOneWay w.tags) a ls hls)
          hpk
        rw [hflat]
        simp [List.length_zip]

/-- C4, loader and way used by the witnesses: no metrics, a filter accepting
everything, and a three-node way with no tags (hence bidirectional). -/
def trivialLoader : LoaderModel :=
  { edgeFilterInvalid := fun _ => false, tagMetrics := [], nodeMetrics := [],
    costMetrics := [], internalMetrics := [] }

/-- The way used by the C4 witness. -/
def c4way : Way := { nodes := [5, 6, 7], tags := [] }

/-- The edges `process_way` produces for `c4way`. -/
def c4edges : List Edge :=
  [{ source := 5, dest := 6, costs := [] }, { source := 6, dest := 5, costs := [] },
   { source := 6, dest := 7, costs := [] }, { source := 7, dest := 6, costs := [] }]

/-- C4, witness: the count theorem applied to a concrete bidirectional
three-node way, which yields 4 edges. -/
theorem c4_witness :
    trivialLoader.edgeFilterInvalid c4way.tags = false ∧
      1 ≤ c4way.nodes.length ∧ processWay trivialLoader c4way = some c4edges ∧
      c4edges.length = (if isOneWay c4way.tags then 1 else 2) * (c4way.nodes.length - 1) :=
  ⟨rfl, by decide, by decide,
    c4_raw_edge_count trivialLoader c4way c4edges rfl (by decide) (by decide)⟩

theorem tagCostOf_inv {l : LoaderModel} {tags : Tags}
    {t : String × (Tags → Except MetricErr F64)} {p : Nat × F64}
    (h : tagCostOf l tags t = some p) :
    btGet? l.metricsIndices t.1 = some p.1 := by
  rw [tagCostOf] at h
  rcases Option.bind_eq_some.mp h with ⟨i, hi, hrest⟩
  cases hv : t.2 tags with
  | ok v =>
    rw [hv] at hrest
    injection hrest with h2
    rw [hi, ← h2]
  | error e => rw [hv] at hrest; simp at hrest

theorem mkEdge_isSome {count : Nat} {tagCosts : List (Nat × F64)} (s d : Nat)
    (h : ∀ p ∈ tagCosts, p.1 < count) :
    (mkEdge count tagCosts s d).isSome := by
  have hlen : (Edge.new s d count).costs.length = count := by
    simp [Edge.new]
  have := applyWrites_isSome tagCosts (Edge.new s d count).costs
    (fun p hp => by rw [hlen]; exact h p hp)
  rw [mkEdge]
  rcases Option.isSome_iff_exists.mp this with ⟨cs, hcs⟩
  simp [hcs]

theorem segmentEdges_isSome {l : LoaderModel} {tagCosts : List (Nat × F64)}
    (ow : Bool) (p : Nat × Nat)
    (h : ∀ q ∈ tagCosts, q.1 < l.internalMetricCount) :
    (segmentEdges l tagCosts ow p).isSome := by
  rw [segmentEdges]
  rcases Option.isSome_iff_exists.mp (mkEdge_isSome p.1 p.2 h) with ⟨e1, he1⟩
  rcases Option.isSome_iff_exists.mp (mkEdge_isSome p.2 p.1 h) with ⟨e2, he2⟩
  cases ow with
  | true => simp [he1]
  | false => simp [he1, he2]

/-- C10: `process_way` is not total on accepted ways. Provided the loader's
tag metrics are well formed (every tag metric name registered at a slot
below the metric count and every `calc` succeeding, as with the repository's
metric catalogue), `process_way` of an accepted way panics exactly when the
way's node-reference list is empty (`w.nodes.len() - 1` underflows before
`w.nodes.last().unwrap()` is reached), and returns normally otherwise. -/
theorem c10_processWay_panics_iff_no_nodes (l : LoaderModel) (w : Way)
    (hacc : l.edgeFilterInvalid w.tags = false)
    (hreg : ∀ t ∈ l.tagMetrics,
      ∃ i, btGet? l.metricsIndices t.1 = some i ∧ i < l.internalMetricCount)
    (hcalc : ∀ t ∈ l.tagMetrics, ∃ v, t.2 w.tags = Except.ok v) :
    processWay l w = none ↔ w.nodes = [] := by
  rw [processWay, if_neg (by simp [hacc])]
  have htcS : (omapM (tagCostOf l w.tags) l.tagMetrics).isSome := by
    refine omapM_some_of_all_some _ _ (fun t ht => ?_)
    rcases hreg t ht with ⟨i, hi, _⟩
    rcases hcalc t ht with ⟨v, hv⟩
    simp [tagCostOf, hi, hv]
  rcases Option.isSome_iff_exists.mp htcS with ⟨tagCosts, htc⟩
  have hslots : ∀ q ∈ tagCosts, q.1 < l.internalMetricCount := by
    intro q hq
    rcases omapM_mem htc q hq with ⟨t, ht, hinv⟩
    rcases hreg t ht with ⟨i, hi, hic⟩
    have := tagCostOf_inv hinv
    rw [hi] at this
    cases this
    exact hic
  constructor
  · intro hnone
    rw [htc] at hnone
    simp only [Option.bind_some, Option.bind_eq_bind, Option.some_bind] at hnone
    cases hw : w.nodes with
    | nil => rfl
    | cons x xs =>
      rw [hw] at hnone
      have hpkS : (omapM (segmentEdges l tagCosts (isOneWay w.tags))
          ((x :: xs).zip (x :: xs).tail)).isSome :=
        omapM_some_of_all_some _ _
          (fun p _ => segmentEdges_isSome (isOneWay w.tags) p hslots)
      rcases Option.isSome_iff_exists.mp hpkS with ⟨packs, hpk⟩
      rw [hpk] at hnone
      simp at hnone
  · intro hw
    rw [htc, hw]
    simp

/-- The empty way used by the C10 witness. -/
def c10way : Way := { nodes := [], tags := [] }

/-- C10, witness: the totality theorem applied to an accepted way with no
node references under the metric-free loader. -/
theorem c10_witness :
    trivialLoader.edgeFilterInvalid c10way.tags = false ∧
      (∀ t ∈ trivialLoader.tagMetrics, ∃ i,
        btGet? trivialLoader.metricsIndices t.1 = some i ∧
          i < trivialLoader.internalMetricCount) ∧
      (∀ t ∈ trivialLoader.tagMetrics, ∃ v, t.2 c10way.tags = Except.ok v) ∧
      (processWay trivialLoader c10way = none ↔ c10way.nodes = []) :=
  ⟨rfl, by simp [trivialLoader], by simp [trivialLoader],
    c10_processWay_panics_iff_no_nodes trivialLoader c10way rfl
      (by simp [trivialLoader]) (by simp [trivialLoader])⟩

/-! ### One-way determination (claim C5) -/

/-- C5: one-way status. An explicit `oneway` value of `yes`/`true` forces
forward-only and `no`/`false` forces bidirectional regardless of the flag;
any other situation falls back to the motorway/roundabout/circular
heuristic, which the always-bidirectional loader configuration overrides.
With the flag off this is exactly `is_one_way` of `pbf.rs`. -/
theorem c5_one_way_determination (tags : Tags) (flag : Bool) :
    isOneWayConfigured false tags = isOneWay tags ∧
    ((getTag tags "oneway" = some "yes" ∨ getTag tags "oneway" = some "true") →
      isOneWayConfigured flag tags = true) ∧
    ((getTag tags "oneway" = some "no" ∨ getTag tags "oneway" = some "false") →
      isOneWayConfigured flag tags = false) ∧
    ((∀ v, getTag tags "oneway" = some v →
        v ≠ "yes" ∧ v ≠ "true" ∧ v ≠ "no" ∧ v ≠ "false") →
      isOneWayConfigured flag tags =
        (!flag &&
          (getTag tags "highway" == some "motorway" ||
            (getTag tags "junction" == some "roundabout" ||
              getTag tags "junction" == some "circular")))) := by
  refine ⟨?_, ?_, ?_, ?_⟩
  · rw [isOneWayConfigured, isOneWay]
    split <;> rfl
  · intro h
    rcases h with h | h <;> (rw [isOneWayConfigured, h]; rfl)
  · intro h
    rcases h with h | h <;> (rw [isOneWayConfigured, h]; rfl)
  · intro h
    rw [isOneWayConfigured]
    split
    case _ heq => exact absurd rfl (h _ heq).1
    case _ heq => exact absurd rfl (h _ heq).2.1
    case _ heq => exact absurd rfl (h _ heq).2.2.1
    case _ heq => exact absurd rfl (h _ heq).2.2.2
    case _ =>
      cases flag with
      | true => rfl
      | false =>
        simp only [Bool.not_false, Bool.true_and, if_false, Bool.false_eq_true]
        cases hh : getTag tags "highway" <;> cases hj : getTag tags "junction" <;>
          simp [Option.map, Option.getD]

/-- C5, witness: the determination theorem applied to concrete tag sets —
an explicit `oneway=yes` stays one-way even under the always-bidirectional
flag, and with the flag off the configured model coincides with
`is_one_way` on a motorway. -/
theorem c5_witness :
    isOneWayConfigured true [("oneway", "yes")] = true ∧
      isOneWayConfigured false [("highway", "motorway")] =
        isOneWay [("highway", "motorway")] :=
  ⟨(c5_one_way_determination [("oneway", "yes")] true).2.1 (Or.inl (by decide)),
    (c5_one_way_determination [("highway", "motorway")] false).1⟩

/-! ### The pedestrian filter (claim C6) -/

/-- The highway set of claim C6, written from the claim: `{motorway,
motorway_link, proposed, construction, abandoned, platform, raceway, trunk,
trunk_link}` or an absent highway tag — without `"motor"`. -/
def c6ClaimDisallowedHighway (tags : Tags) : Bool :=
  match getTag tags "highway" with
  | some "motorway" => true
  | some "motorway_link" => true
  | some "proposed" => true
  | some "construction" => true
  | some "abandoned" => true
  | some "platform" => true
  | some "raceway" => true
  | some "trunk" => true
  | some "trunk_link" => true
  | none => true
  | some _ => false

/-- The pedestrian filter as claim C6 states it: invalid iff an explicit
`walking=no` tag is present, or — when no non-`"no"` sidewalk tag exempts
the way — the highway tag is absent or in the claim's nine-element set. -/
def c6ClaimInvalid (tags : Tags) : Bool :=
  (getTag tags "walking" == some "no") ||
    (!(hasNonNoSidewalk tags) && c6ClaimDisallowedHighway tags)

/-- C6, counterexample: on `highway=motor` the filter marks the way invalid
although the claim's formula (whose set lacks `"motor"`) says valid. -/
theorem c6_counterexample :
    walkingEdgeFilterIsInvalid [("highway", "motor")] = true ∧
      c6ClaimInvalid [("highway", "motor")] = false := by
  constructor <;> rfl

/-- C6, amended: the pedestrian filter marks a way invalid iff an explicit
`walking=no` tag is present, or — when no sidewalk tag with a value other
than `"no"` exempts it — the highway tag is absent or in the set
`{motorway, motorway_link, motor, proposed, construction, abandoned,
platform, raceway, trunk, trunk_link}` (the code's set also contains
`"motor"`). -/
theorem c6_walking_filter (tags : Tags) :
    walkingEdgeFilterIsInvalid tags =
      ((getTag tags "walking" == some "no") ||
        (!(hasNonNoSidewalk tags) && walkingDisallowedHighway tags)) := by
  rw [walkingEdgeFilterIsInvalid]
  by_cases hw : (getTag tags "walking" == some "no") = true
  · simp [hw]
  · rw [if_neg (by simpa using hw)]
    rw [Bool.not_eq_true] at hw
    rw [hw, Bool.false_or]
    by_cases hs : hasNonNoSidewalk tags = true
    · simp [hs]
    · rw [Bool.not_eq_true] at hs
      simp [hs]

/-! ### Travel time (claim C7) -/

theorem omapM_eq_none_of_mem {α β : Type} {f : α → Option β} :
    ∀ {xs : List α} {x : α}, x ∈ xs → f x = none → omapM f xs = none := by
  intro xs
  induction xs with
  | nil => intro x hx _; exact absurd hx (List.not_mem_nil x)
  | cons y ys ih =>
    intro x hx hf
    rcases List.mem_cons.mp hx with rfl | hx'
    · simp [omapM, hf]
    · cases hy : f y with
      | none => simp [omapM, hy]
      | some z => simp [omapM, hy, ih hx' hf]

/-- C7: `TravelTime`'s cost-metric `calc` yields the unknown-metric error
iff the distance or speed dependency name is unregistered; with both
registered and their slots readable it returns the distance divided by the
speed converted to meters per second, failing with the non-finite-time
error exactly when that quotient is non-finite — as it is for a zero speed
and positive distance; and a failing cost metric aborts the whole
derived-cost pass rather than skipping the record. -/
theorem c7_travel_time (distName speedName : String) (costs : List F64)
    (m : MetricIndices) :
    (travelTimeCalc distName speedName costs m = some (.error .unknownMetric) ↔
      btGet? m distName = none ∨ btGet? m speedName = none) ∧
    (∀ di si dist speed, btGet? m distName = some di →
      btGet? m speedName = some si → costs.get? di = some dist →
      costs.get? si = some speed →
      travelTimeCalc distName speedName costs m =
        (if (F64.div dist (kmhToMs speed)).isFinite then
          some (.ok (F64.div dist (kmhToMs speed)))
         else some (.error (.nonFiniteTime dist speed)))) ∧
    (∀ q : ℚ, 0 < q →
      (F64.div (F64.fin q) (kmhToMs (F64.fin 0))).isFinite = false) ∧
    (∀ (l : LoaderModel) (edges : List Edge) (e : Edge), e ∈ edges →
      applyCostMetricsToEdge l e = none → calculateCostMetrics l edges = none) := by
  refine ⟨?_, ?_, ?_, ?_⟩
  · rw [travelTimeCalc]
    cases hd : btGet? m distName with
    | none => simp
    | some di =>
      cases hs : btGet? m speedName with
      | none => simp
      | some si =>
        simp only [reduceCtorEq, or_self, iff_false]
        cases hcd : costs.get? di with
        | none => simp
        | some dist =>
          cases hcs : costs.get? si with
          | none => simp
          | some speed =>
            by_cases hfin : (F64.div dist (kmhToMs speed)).isFinite = true
            · simp [hfin]
            · simp [hfin]
  · intro di si dist speed hdi hsi hcdi hcsi
    simp only [travelTimeCalc, hdi, hsi, hcdi, hcsi]
  · intro q hq
    have h36 : (18 / 5 : ℚ) ≠ 0 := by norm_num
    have h0 : (0 : ℚ) / (18 / 5 : ℚ) = 0 := by norm_num
    rw [kmhToMs, F64.div, if_neg h36, h0, F64.div, if_pos rfl,
      if_neg hq.ne', if_pos hq]
    rfl
  · intro l edges e he hnone
    exact omapM_eq_none_of_mem he hnone

/-- The metric index used by the C7 witness: a `Speed` tag metric at slot 0,
a `Distance_` node metric at slot 1, a `TravelTime` cost metric at slot 2. -/
def c7indices : MetricIndices :=
  buildMetricIndices ["Speed"] ["Distance_"] ["TravelTime"]

/-- The cost vector of the C7 witness: zero speed on an edge of length 100
meters. -/
def c7costs : List F64 := [F64.fin 0, F64.fin 100, F64.fin 0]

/-- C7, witness: on a traversable edge with zero speed the travel-time
metric reports the non-finite-time error carrying the raw distance and
speed. -/
theorem c7_witness :
    btGet? c7indices "Distance_" = some 1 ∧
      btGet? c7indices "Speed" = some 0 ∧
      c7costs.get? 1 = some (F64.fin 100) ∧
      c7costs.get? 0 = some (F64.fin 0) ∧
      travelTimeCalc "Distance_" "Speed" c7costs c7indices =
        (if (F64.div (F64.fin 100) (kmhToMs (F64.fin 0))).isFinite then
          some (.ok (F64.div (F64.fin 100) (kmhToMs (F64.fin 0))))
         else some (.error (.nonFiniteTime (F64.fin 100) (F64.fin 0)))) :=
  ⟨by decide, by decide, by decide, by decide,
    (c7_travel_time "Distance_" "Speed" c7costs c7indices).2.1 1 0
      (F64.fin 100) (F64.fin 0) (by decide) (by decide) (by decide) (by decide)⟩

/-! ### The metric index (claims C3 and C9) -/

theorem btGet?_nil (k : String) : btGet? ([] : MetricIndices) k = none := rfl

theorem btGet?_cons (k1 : String) (v1 : Nat) (rest : List (String × Nat))
    (k : String) :
    btGet? ((k1, v1) :: rest : MetricIndices) k =
      if k1 = k then some v1 else btGet? rest k := by
  by_cases h : k1 = k
  · rw [if_pos h]
    subst h
    rw [btGet?, List.find?_cons_of_pos _ (by simp)]
    rfl
  · rw [if_neg h, btGet?, List.find?_cons_of_neg _ (by simp [h])]
    rfl

theorem btGet?_btInsert (m : MetricIndices) (k : String) (v : Nat) (k2 : String) :
    btGet? (btInsert m k v) k2 = if k2 = k then some v else btGet? m k2 := by
  induction m with
  | nil =>
    rw [btInsert]
    by_cases h : k2 = k
    · rw [if_pos h, btGet?_cons, if_pos h.symm]
    · rw [if_neg h, btGet?_cons, if_neg (fun hh => h hh.symm), btGet?_nil]
  | cons p rest ih =>
    rcases p with ⟨k1, v1⟩
    rw [btInsert]
    by_cases hlt : strLt k k1
    · rw [if_pos hlt]
      by_cases h : k2 = k
      · rw [if_pos h, btGet?_cons, if_pos h.symm]
      · rw [if_neg h, btGet?_cons, if_neg (fun hh => h hh.symm), btGet?_cons]
    · rw [if_neg hlt]
      by_cases heq : k == k1
      · rw [if_pos heq]
        have heq2 : k = k1 := by simpa using heq
        subst heq2
        by_cases h : k2 = k
        · rw [if_pos h, btGet?_cons, if_pos h.symm]
        · rw [if_neg h, btGet?_cons, if_neg (fun hh => h hh.symm),
            btGet?_cons, if_neg (fun hh => h hh.symm)]
      · rw [if_neg heq]
        have hne : k ≠ k1 := by simpa using heq
        by_cases h : k2 = k
        · subst h
          rw [btGet?_cons, if_neg (fun hh : k1 = k2 => hne hh.symm), ih,
            if_pos rfl, if_pos rfl]
        · by_cases h1 : k1 = k2
          · rw [if_neg h, btGet?_cons, if_pos h1, btGet?_cons, if_pos h1]
          · rw [if_neg h, btGet?_cons, if_neg h1, ih, if_neg h, btGet?_cons,
              if_neg h1]

theorem foldl_btInsert_get (pairs : List (Nat × String)) (m0 : MetricIndices)
    (k : String) (hnd : (pairs.map Prod.snd).Nodup) :
    btGet? (pairs.foldl (fun m p => btInsert m p.2 p.1) m0) k =
      (match pairs.find? (fun p => p.2 == k) with
       | some p => some p.1
       | none => btGet? m0 k) := by
  induction pairs generalizing m0 with
  | nil => rfl
  | cons p ps ih =>
    simp only [List.map_cons, List.nodup_cons] at hnd
    rw [List.foldl_cons, ih _ hnd.2]
    by_cases h : p.2 = k
    · have hnone : ps.find? (fun q => q.2 == k) = none := by
        rw [List.find?_eq_none]
        intro q hq hq2
        refine hnd.1 ?_
        rw [h, ← (show q.2 = k by simpa using hq2)]
        exact List.mem_map_of_mem Prod.snd hq
      rw [hnone, List.find?_cons_of_pos _ (by simpa using h), btGet?_btInsert,
        if_pos h.symm]
    · rw [List.find?_cons_of_neg _ (by simpa using h)]
      cases hf : ps.find? (fun q => q.2 == k) with
      | some q => rfl
      | none =>
        show btGet? (btInsert m0 p.2 p.1) k = btGet? m0 k
        rw [btGet?_btInsert, if_neg (fun hh => h hh.symm)]

theorem buildIndices_get (tagNames nodeNames costNames : List String)
    (hnd : (tagNames ++ nodeNames ++ costNames).Nodup) (k : String) (i : Nat) :
    btGet? (buildMetricIndices tagNames nodeNames costNames) k = some i ↔
      (tagNames ++ nodeNames ++ costNames)[i]? = some k := by
  have hmap : ((tagNames ++ nodeNames ++ costNames).enum.map Prod.snd).Nodup := by
    rw [List.enum_map_snd]; exact hnd
  rw [buildMetricIndices, foldl_btInsert_get _ _ _ hmap]
  constructor
  · intro h
    cases hf : (tagNames ++ nodeNames ++ costNames).enum.find?
        (fun p => p.2 == k) with
    | none => rw [hf] at h; simp [btGet?_nil] at h
    | some p =>
      rw [hf] at h
      simp only [Option.some.injEq] at h
      subst h
      have hp2 : p.2 = k := by simpa using List.find?_some hf
      have hmem := List.mem_of_find?_eq_some hf
      rw [List.mem_enum_iff_getElem?] at hmem
      rw [← hp2]
      exact hmem
  · intro h
    have hmem : (i, k) ∈ (tagNames ++ nodeNames ++ costNames).enum :=
      List.mem_enum_iff_getElem?.mpr h
    have hsome : ((tagNames ++ nodeNames ++ costNames).enum.find?
        (fun p => p.2 == k)).isSome := by
      rw [List.find?_isSome]
      exact ⟨(i, k), hmem, by simp⟩
    rcases Option.isSome_iff_exists.mp hsome with ⟨q, hq⟩
    rw [hq]
    have hq2 : q.2 = k := by simpa using List.find?_some hq
    have hqmem := List.mem_of_find?_eq_some hq
    rw [List.mem_enum_iff_getElem?] at hqmem
    have hlt : q.1 < (tagNames ++ nodeNames ++ costNames).length :=
      (List.getElem?_eq_some.mp hqmem).1
    have hqi : q.1 = i := by
      refine List.getElem?_inj hlt hnd ?_
      rw [hqmem, hq2, h]
    show some q.1 = some i
    rw [hqi]

theorem applyWrites_cons (w : Nat × F64) (ws : List (Nat × F64)) (cs : List F64) :
    applyWrites (w :: ws) cs =
      if w.1 < cs.length then applyWrites ws (cs.set w.1 w.2) else none := by
  by_cases h : w.1 < cs.length
  · rw [applyWrites, List.foldlM_cons, if_pos h, if_pos h]; rfl
  · rw [applyWrites, List.foldlM_cons, if_neg h, if_neg h]; rfl

theorem applyWrites_getElem?_untouched :
    ∀ {writes : List (Nat × F64)} {cs cs2 : List F64},
      applyWrites writes cs = some cs2 → ∀ j, (∀ p ∈ writes, p.1 ≠ j) →
        cs2[j]? = cs[j]? := by
  intro writes
  induction writes with
  | nil => intro cs cs2 h j _; simp [applyWrites] at h; subst h; rfl
  | cons w ws ih =>
    intro cs cs2 h j hj
    rw [applyWrites_cons] at h
    by_cases hw : w.1 < cs.length
    · rw [if_pos hw] at h
      rw [ih h j (fun p hp => hj p (List.mem_cons_of_mem w hp)),
        List.getElem?_set_ne (hj w (List.mem_cons_self w ws))]
    · rw [if_neg hw] at h; simp at h

theorem applyWrites_getElem?_written :
    ∀ {writes : List (Nat × F64)} {cs cs2 : List F64},
      applyWrites writes cs = some cs2 → (writes.map Prod.fst).Nodup →
        ∀ p ∈ writes, cs2[p.1]? = some p.2 := by
  intro writes
  induction writes with
  | nil => intro cs cs2 _ _ p hp; exact absurd hp (List.not_mem_nil p)
  | cons w ws ih =>
    intro cs cs2 h hnd p hp
    rw [applyWrites_cons] at h
    simp only [List.map_cons, List.nodup_cons] at hnd
    by_cases hw : w.1 < cs.length
    · rw [if_pos hw] at h
      rcases List.mem_cons.mp hp with rfl | hp'
      · rw [applyWrites_getElem?_untouched h p.1
          (fun q hq hq1 => hnd.1 (hq1 ▸ List.mem_map_of_mem Prod.fst hq)),
          List.getElem?_set_self hw]
      · exact ih h hnd.2 p hp'
    · rw [if_neg hw] at h; simp at h

theorem forall₂_omapM {α β : Type} {f : α → Option β} :
    ∀ {xs : List α} {ys : List β}, omapM f xs = some ys →
      List.Forall₂ (fun x y => f x = some y) xs ys := by
  intro xs
  induction xs with
  | nil => intro ys h; simp [omapM] at h; subst h; exact List.Forall₂.nil
  | cons x xs ih =>
    intro ys h
    rcases omapM_cons_eq_some h with ⟨y, zs, hy, hzs, rfl⟩
    exact List.Forall₂.cons hy (ih hzs)

theorem forall₂_mem_left {α β : Type} {r : α → β → Prop} :
    ∀ {xs : List α} {ys : List β}, List.Forall₂ r xs ys →
      ∀ x ∈ xs, ∃ y ∈ ys, r x y := by
  intro xs ys h
  induction h with
  | nil => intro x hx; exact absurd hx (List.not_mem_nil x)
  | cons hr _ ih =>
    intro x hx
    rcases List.mem_cons.mp hx with rfl | hx'
    · exact ⟨_, List.mem_cons_self _ _, hr⟩
    · rcases ih x hx' with ⟨y, hy, hxy⟩
      exact ⟨y, List.mem_cons_of_mem _ hy, hxy⟩

theorem forall₂_mem_right {α β : Type} {r : α → β → Prop} :
    ∀ {xs : List α} {ys : List β}, List.Forall₂ r xs ys →
      ∀ y ∈ ys, ∃ x ∈ xs, r x y := by
  intro xs ys h
  induction h with
  | nil => intro y hy; exact absurd hy (List.not_mem_nil y)
  | cons hr _ ih =>
    intro y hy
    rcases List.mem_cons.mp hy with rfl | hy'
    · exact ⟨_, List.mem_cons_self _ _, hr⟩
    · rcases ih y hy' with ⟨x, hx, hxy⟩
      exact ⟨x, List.mem_cons_of_mem _ hx, hxy⟩

/-- Registered slots determine names: two names resolving to the same slot
in an index built from pairwise-distinct name lists are equal. -/
theorem btGet?_inj {tagNames nodeNames costNames : List String}
    (hnd : (tagNames ++ nodeNames ++ costNames).Nodup) {n1 n2 : String} {s : Nat}
    (h1 : btGet? (buildMetricIndices tagNames nodeNames costNames) n1 = some s)
    (h2 : btGet? (buildMetricIndices tagNames nodeNames costNames) n2 = some s) :
    n1 = n2 := by
  have g1 := (buildIndices_get _ _ _ hnd n1 s).mp h1
  have g2 := (buildIndices_get _ _ _ hnd n2 s).mp h2
  rw [g1] at g2
  exact (Option.some.injEq _ _ ▸ g2).symm ▸ rfl

/-- Distinct metric names yield distinct write slots: the `(index, value)`
lists built by the tag and node passes have pairwise distinct indices. -/
theorem write_slots_nodup {α : Type} {m : MetricIndices}
    {σ : (String × α) → Option (Nat × F64)}
    (hσ : ∀ t p, σ t = some p → btGet? m t.1 = some p.1)
    (hinj : ∀ n1 n2 s, btGet? m n1 = some s → btGet? m n2 = some s → n1 = n2)
    {fns : List (String × α)} :
    ∀ {writes : List (Nat × F64)}, omapM σ fns = some writes →
      (fns.map Prod.fst).Nodup → (writes.map Prod.fst).Nodup := by
  induction fns with
  | nil =>
    intro writes h _
    simp [omapM] at h; subst h; exact List.nodup_nil
  | cons t ts ih =>
    intro writes h hnd
    rcases omapM_cons_eq_some h with ⟨p, ps, hp, hps, rfl⟩
    simp only [List.map_cons, List.nodup_cons] at hnd ⊢
    refine ⟨?_, ih hps hnd.2⟩
    intro hmem
    rcases List.mem_map.mp hmem with ⟨q, hq, hq1⟩
    rcases omapM_mem hps q hq with ⟨t2, ht2, hrel⟩
    have hb2 := hσ t2 q hrel
    have hb1 := hσ _ _ hp
    rw [hq1] at hb2
    exact hnd.1 ((hinj _ _ _ hb1 hb2) ▸ List.mem_map_of_mem Prod.fst ht2)

theorem tagCostOf_spec {l : LoaderModel} {tags : Tags}
    {t : String × (Tags → Except MetricErr F64)} {p : Nat × F64}
    (h : tagCostOf l tags t = some p) :
    btGet? l.metricsIndices t.1 = some p.1 ∧ t.2 tags = Except.ok p.2 := by
  rw [tagCostOf] at h
  rcases Option.bind_eq_some.mp h with ⟨i, hi, hrest⟩
  cases hv : t.2 tags with
  | ok v =>
    rw [hv] at hrest
    injection hrest with h2
    rw [hi, ← h2]
    exact ⟨rfl, rfl⟩
  | error e => rw [hv] at hrest; simp at hrest

theorem nodeWriteOf_spec {l : LoaderModel} {src dst : Node}
    {nm : String × (Node → Node → Except MetricErr F64)} {p : Nat × F64}
    (h : nodeWriteOf l src dst nm = some p) :
    btGet? l.metricsIndices nm.1 = some p.1 ∧ nm.2 src dst = Except.ok p.2 := by
  rw [nodeWriteOf] at h
  rcases Option.bind_eq_some.mp h with ⟨i, hi, hrest⟩
  cases hv : nm.2 src dst with
  | ok v =>
    rw [hv] at hrest
    injection hrest with h2
    rw [hi, ← h2]
    exact ⟨rfl, rfl⟩
  | error e => rw [hv] at hrest; simp at hrest

theorem mkEdge_spec {count : Nat} {tagCosts : List (Nat × F64)} {s d : Nat}
    {e : Edge} (h : mkEdge count tagCosts s d = some e) :
    applyWrites tagCosts (List.replicate count (F64.fin 0)) = some e.costs ∧
      e.source = s ∧ e.dest = d := by
  rw [mkEdge] at h
  rcases Option.map_eq_some'.mp h with ⟨cs, hcs, heq⟩
  subst heq
  exact ⟨hcs, rfl, rfl⟩

theorem segmentEdges_mem {l : LoaderModel} {tagCosts : List (Nat × F64)}
    {ow : Bool} {p : Nat × Nat} {pack : List Edge} {e : Edge}
    (h : segmentEdges l tagCosts ow p = some pack) (he : e ∈ pack) :
    mkEdge l.internalMetricCount tagCosts p.1 p.2 = some e ∨
      mkEdge l.internalMetricCount tagCosts p.2 p.1 = some e := by
  rw [segmentEdges] at h
  cases h1 : mkEdge l.internalMetricCount tagCosts p.1 p.2 with
  | none => rw [h1] at h; simp at h
  | some e1 =>
    rw [h1] at h
    cases ow with
    | true =>
      simp only [Option.bind_some, if_true, Option.pure_def,
        Option.bind_eq_bind, Option.some_bind, Option.some.injEq] at h
      subst h
      rcases List.mem_singleton.mp he with rfl
      exact Or.inl rfl
    | false =>
      simp only [Option.bind_some, if_false, Option.pure_def,
        Option.bind_eq_bind, Option.some_bind, Bool.false_eq_true] at h
      cases h2 : mkEdge l.internalMetricCount tagCosts p.2 p.1 with
      | none => rw [h2] at h; simp at h
      | some e2 =>
        rw [h2] at h
        simp only [Option.some_bind, Option.some.injEq] at h
        subst h
        rcases he with _ | ⟨_, he⟩
        · exact Or.inl rfl
        · rcases List.mem_singleton.mp he with rfl
          exact Or.inr rfl

theorem costMetricStep_spec {l : LoaderModel} {cs cs3 : List F64}
    {c : String × (List F64 → MetricIndices → Option (Except MetricErr F64))}
    (h : costMetricStep l cs c = some cs3) :
    ∃ i v, btGet? l.metricsIndices c.1 = some i ∧
      c.2 cs l.metricsIndices = some (Except.ok v) ∧ i < cs.length ∧
      cs3 = cs.set i v := by
  rw [costMetricStep] at h
  rcases Option.bind_eq_some.mp h with ⟨i, hi, h2⟩
  rcases Option.bind_eq_some.mp h2 with ⟨r, hr, h3⟩
  cases r with
  | ok v =>
    have h4 : (if i < cs.length then some (cs.set i v) else none) = some cs3 := h3
    by_cases hlen : i < cs.length
    · rw [if_pos hlen] at h4
      injection h4 with h5
      exact ⟨i, v, hi, hr, hlen, h5.symm⟩
    · rw [if_neg hlen] at h4; simp at h4
  | error err =>
    have h4 : (none : Option (List F64)) = some cs3 := h3
    simp at h4

theorem costFold_untouched {l : LoaderModel} :
    ∀ {cms : List (String × (List F64 → MetricIndices → Option (Except MetricErr F64)))}
      {cs cs2 : List F64}, cms.foldlM (costMetricStep l) cs = some cs2 →
      ∀ j, (∀ c ∈ cms, btGet? l.metricsIndices c.1 ≠ some j) →
        cs2[j]? = cs[j]? := by
  intro cms
  induction cms with
  | nil => intro cs cs2 h j _; simp at h; subst h; rfl
  | cons c cms ih =>
    intro cs cs2 h j hj
    rw [List.foldlM_cons] at h
    cases hs : costMetricStep l cs c with
    | none => rw [hs] at h; simp at h
    | some cs1 =>
      rw [hs] at h
      rcases costMetricStep_spec hs with ⟨i, v, hi, _, _, rfl⟩
      rw [ih h j (fun q hq => hj q (List.mem_cons_of_mem c hq)),
        List.getElem?_set_ne]
      intro hij
      exact hj c (List.mem_cons_self c cms) (hij ▸ hi)

/-- C3: Metric Index slots are assigned once at builder construction as
consecutive integers from 0 in the fixed order tag metrics, node metrics,
cost metrics (for the pairwise-distinct metric names the data model
requires); every edge is created with a cost vector of length equal to the
total number of registered metrics, initialized to 0.0; and each phase
stores every metric's computed value at exactly its registered slot while
leaving all other slots untouched — across construction (tag pass),
mutation (node and cost passes), and the slot reads of the emission. -/
theorem c3_metric_slot_invariant (l : LoaderModel)
    (hnd : (l.tagMetrics.map Prod.fst ++ l.nodeMetrics.map Prod.fst ++
      l.costMetrics.map Prod.fst).Nodup) :
    (∀ k i, btGet? l.metricsIndices k = some i ↔
      (l.tagMetrics.map Prod.fst ++ l.nodeMetrics.map Prod.fst ++
        l.costMetrics.map Prod.fst)[i]? = some k) ∧
    (∀ s d, (Edge.new s d l.internalMetricCount).costs =
      List.replicate l.internalMetricCount (F64.fin 0)) ∧
    (∀ w es, processWay l w = some es → ∀ e ∈ es,
      e.costs.length = l.internalMetricCount ∧
      ∀ t ∈ l.tagMetrics, ∃ i v, btGet? l.metricsIndices t.1 = some i ∧
        t.2 w.tags = Except.ok v ∧ e.costs[i]? = some v) ∧
    (∀ nodes e e2 sp dp, renameEdge l nodes e = some e2 →
      nodeMap nodes e.source = some sp → nodeMap nodes e.dest = some dp →
      e2.costs.length = e.costs.length ∧
      (∀ nm ∈ l.nodeMetrics, ∃ i v, btGet? l.metricsIndices nm.1 = some i ∧
        nm.2 sp.2 dp.2 = Except.ok v ∧ e2.costs[i]? = some v) ∧
      (∀ j, (∀ nm ∈ l.nodeMetrics, btGet? l.metricsIndices nm.1 ≠ some j) →
        e2.costs[j]? = e.costs[j]?)) ∧
    (∀ cs c cs3, costMetricStep l cs c = some cs3 → ∃ i v,
      btGet? l.metricsIndices c.1 = some i ∧
      c.2 cs l.metricsIndices = some (Except.ok v) ∧ cs3 = cs.set i v) ∧
    (∀ e e2, applyCostMetricsToEdge l e = some e2 →
      ∀ j, (∀ c ∈ l.costMetrics, btGet? l.metricsIndices c.1 ≠ some j) →
        e2.costs[j]? = e.costs[j]?) := by
  have hinj : ∀ n1 n2 s, btGet? l.metricsIndices n1 = some s →
      btGet? l.metricsIndices n2 = some s → n1 = n2 := by
    intro n1 n2 s h1 h2
    simp only [LoaderModel.metricsIndices] at h1 h2
    exact btGet?_inj hnd h1 h2
  refine ⟨?_, fun s d => rfl, ?_, ?_, ?_, ?_⟩
  · intro k i
    simp only [LoaderModel.metricsIndices]
    exact buildIndices_get _ _ _ hnd k i
  · -- the tag pass
    intro w es hes e he
    rw [processWay] at hes
    by_cases hinv : l.edgeFilterInvalid w.tags = true
    · rw [if_pos hinv] at hes
      injection hes with h2
      subst h2
      exact absurd he (List.not_mem_nil e)
    · rw [if_neg hinv] at hes
      cases htc : omapM (tagCostOf l w.tags) l.tagMetrics with
      | none => rw [htc] at hes; simp at hes
      | some tagCosts =>
        rw [htc] at hes
        simp only [Option.bind_some, Option.bind_eq_bind, Option.some_bind] at hes
        cases hw : w.nodes with
        | nil => rw [hw] at hes; simp at hes
        | cons x xs =>
          rw [hw] at hes
          simp only [Option.bind_eq_bind, List.tail_cons] at hes
          cases hpk : omapM (segmentEdges l tagCosts (isOneWay w.tags))
              ((x :: xs).zip xs) with
          | none => rw [hpk] at hes; simp at hes
          | some packs =>
            rw [hpk] at hes
            simp only [Option.pure_def, Option.some_bind, Option.some.injEq] at hes
            subst hes
            rcases List.mem_flatten.mp he with ⟨pack, hpack, hepack⟩
            rcases omapM_mem hpk pack hpack with ⟨pair, _, hseg⟩
            have hndtag : (l.tagMetrics.map Prod.fst).Nodup :=
              (hnd.of_append_left).of_append_left
            have hwnodup : (tagCosts.map Prod.fst).Nodup :=
              write_slots_nodup (fun t p hp => (tagCostOf_spec hp).1) hinj
                htc hndtag
            have hmk := segmentEdges_mem hseg hepack
            have key : ∀ s d, mkEdge l.internalMetricCount tagCosts s d = some e →
                e.costs.length = l.internalMetricCount ∧
                ∀ t ∈ l.tagMetrics, ∃ i v,
                  btGet? l.metricsIndices t.1 = some i ∧
                  t.2 w.tags = Except.ok v ∧ e.costs[i]? = some v := by
              intro s d hmk1
              have hcosts := (mkEdge_spec hmk1).1
              constructor
              · rw [applyWrites_length hcosts, List.length_replicate]
              · intro t ht
                rcases forall₂_mem_left (forall₂_omapM htc) t ht with ⟨p, hp, hrel⟩
                rcases tagCostOf_spec hrel with ⟨hslot, hcalc⟩
                exact ⟨p.1, p.2, hslot, hcalc,
                  applyWrites_getElem?_written hcosts hwnodup p hp⟩
            rcases hmk with hmk1 | hmk1
            · exact key pair.1 pair.2 hmk1
            · exact key pair.2 pair.1 hmk1
  · -- the node pass
    intro nodes e e2 sp dp h hsp hdp
    rw [renameEdge] at h
    rcases Option.bind_eq_some.mp h with ⟨s1, hs1, h2⟩
    rcases Option.bind_eq_some.mp h2 with ⟨d1, hd1, h3⟩
    rcases Option.bind_eq_some.mp h3 with ⟨writes, hwr, h4⟩
    rcases Option.bind_eq_some.mp h4 with ⟨cs, hcs, h5⟩
    have hsps : s1 = sp := by rw [hs1] at hsp; injection hsp
    have hdpd : d1 = dp := by rw [hd1] at hdp; injection hdp
    subst hsps; subst hdpd
    injection h5 with h6
    subst h6
    have hndnode : (l.nodeMetrics.map Prod.fst).Nodup :=
      (hnd.of_append_left).of_append_right
    have hwnodup : (writes.map Prod.fst).Nodup :=
      write_slots_nodup (fun t p hp => (nodeWriteOf_spec hp).1) hinj hwr hndnode
    refine ⟨applyWrites_length hcs, ?_, ?_⟩
    · intro nm hnm
      rcases forall₂_mem_left (forall₂_omapM hwr) nm hnm with ⟨p, hp, hrel⟩
      rcases nodeWriteOf_spec hrel with ⟨hslot, hcalc⟩
      exact ⟨p.1, p.2, hslot, hcalc,
        applyWrites_getElem?_written hcs hwnodup p hp⟩
    · intro j hj
      refine applyWrites_getElem?_untouched hcs j (fun p hp hpj => ?_)
      rcases omapM_mem hwr p hp with ⟨nm, hnm, hrel⟩
      exact hj nm hnm (hpj ▸ (nodeWriteOf_spec hrel).1)
  · -- cost pass, per-step shape
    intro cs c cs3 h
    rcases costMetricStep_spec h with ⟨i, v, hi, hv, _, heq⟩
    exact ⟨i, v, hi, hv, heq⟩
  · -- cost pass leaves non-cost slots untouched
    intro e e2 h j hj
    rw [applyCostMetricsToEdge] at h
    rcases Option.bind_eq_some.mp h with ⟨cs, hcs, h2⟩
    injection h2 with h3
    subst h3
    exact costFold_untouched hcs j hj

/-- A small concrete loader for the C3 witness: one tag metric (`Speed`),
one node metric (`Distance_`), one cost metric (`TravelTime`). -/
def c3loader : LoaderModel :=
  { edgeFilterInvalid := fun _ => false,
    tagMetrics := [("Speed", fun _ => Except.ok (F64.fin 50))],
    nodeMetrics := [("Distance_", fun _ _ => Except.ok (F64.fin 100))],
    costMetrics :=
      [("TravelTime", fun costs m => travelTimeCalc "Distance_" "Speed" costs m)],
    internalMetrics := ["Speed"] }

/-- C3, witness: the slot bijection of the invariant theorem, applied to the
concrete loader, puts the node metric `Distance_` at slot 1 — right after
the tag metric and before the cost metric. -/
theorem c3_witness :
    btGet? c3loader.metricsIndices "Distance_" = some 1 :=
  ((c3_metric_slot_invariant c3loader (by decide)).1 "Distance_" 1).mpr (by decide)

/-! ### Emission order of `Edge::costs` (claim C9) -/

theorem charListLt_irrefl : ∀ as : List Char, charListLt as as = false := by
  intro as
  induction as with
  | nil => rfl
  | cons a as ih => simp [charListLt, ih]

theorem charListLt_trans :
    ∀ {as bs cs : List Char}, charListLt as bs = true →
      charListLt bs cs = true → charListLt as cs = true := by
  intro as
  induction as with
  | nil =>
    intro bs cs h1 h2
    cases bs with
    | nil => exact absurd h1 (by simp [charListLt])
    | cons b bs =>
      cases cs with
      | nil => exact absurd h2 (by simp [charListLt])
      | cons c cs => rfl
  | cons a as ih =>
    intro bs cs h1 h2
    cases bs with
    | nil => exact absurd h1 (by simp [charListLt])
    | cons b bs =>
      cases cs with
      | nil => exact absurd h2 (by simp [charListLt])
      | cons c cs =>
        rw [charListLt] at h1 h2 ⊢
        by_cases hab : a.toNat < b.toNat
        · by_cases hbc : b.toNat < c.toNat
          · rw [if_pos (Nat.lt_trans hab hbc)]
          · rw [if_neg hbc] at h2
            by_cases hcb : c.toNat < b.toNat
            · rw [if_pos hcb] at h2; exact absurd h2 (by simp)
            · have hbceq : b.toNat = c.toNat :=
                Nat.le_antisymm (Nat.not_lt.mp hcb) (Nat.not_lt.mp hbc)
              rw [if_pos (show a.toNat < c.toNat by rw [← hbceq]; exact hab)]
        · rw [if_neg hab] at h1
          by_cases hba : b.toNat < a.toNat
          · rw [if_pos hba] at h1; exact absurd h1 (by simp)
          · rw [if_neg hba] at h1
            have habeq : a.toNat = b.toNat :=
              Nat.le_antisymm (Nat.not_lt.mp hba) (Nat.not_lt.mp hab)
            by_cases hbc : b.toNat < c.toNat
            · rw [if_pos (show a.toNat < c.toNat by rw [habeq]; exact hbc)]
            · rw [if_neg hbc] at h2
              by_cases hcb : c.toNat < b.toNat
              · rw [if_pos hcb] at h2; exact absurd h2 (by simp)
              · rw [if_neg hcb] at h2
                have hbceq : b.toNat = c.toNat :=
                  Nat.le_antisymm (Nat.not_lt.mp hcb) (Nat.not_lt.mp hbc)
                have hac : ¬ a.toNat < c.toNat := by
                  rw [habeq, hbceq]; exact Nat.lt_irrefl _
                have hca : ¬ c.toNat < a.toNat := by
                  rw [habeq, hbceq]; exact Nat.lt_irrefl _
                rw [if_neg hac, if_neg hca]
                exact ih h1 h2

theorem charListLt_false_antisymm :
    ∀ {as bs : List Char}, charListLt as bs = false →
      charListLt bs as = false → as = bs := by
  intro as
  induction as with
  | nil =>
    intro bs h1 _
    cases bs with
    | nil => rfl
    | cons b bs => exact absurd h1 (by simp [charListLt])
  | cons a as ih =>
    intro bs h1 h2
    cases bs with
    | nil => exact absurd h2 (by simp [charListLt])
    | cons b bs =>
      rw [charListLt] at h1 h2
      by_cases hab : a.toNat < b.toNat
      · rw [if_pos hab] at h1; exact absurd h1 (by simp)
      · by_cases hba : b.toNat < a.toNat
        · rw [if_pos hba] at h2; exact absurd h2 (by simp)
        · rw [if_neg hab, if_neg hba] at h1
          rw [if_neg hba, if_neg hab] at h2
          have habeq : a.val = b.val := by
            have := Nat.le_antisymm (Nat.not_lt.mp hba) (Nat.not_lt.mp hab)
            exact UInt32.toNat.inj this
          have hchar : a = b := by
            cases a
            cases b
            cases habeq
            rfl
          rw [hchar, ih h1 h2]

theorem strLt_irrefl (a : String) : strLt a a = false :=
  charListLt_irrefl a.data

theorem strLt_trans {a b c : String} (h1 : strLt a b = true)
    (h2 : strLt b c = true) : strLt a c = true :=
  charListLt_trans h1 h2

theorem strLt_false_antisymm {a b : String} (h1 : strLt a b = false)
    (h2 : strLt b a = false) : a = b := by
  have hdata := charListLt_false_antisymm h1 h2
  cases a
  cases b
  exact congrArg String.mk hdata

/-- Insertion via `btInsert` keeps the association list strictly sorted by key. -/
theorem btInsert_sorted {m : MetricIndices} (k : String) (v : Nat)
    (hs : m.Pairwise (fun p q => strLt p.1 q.1 = true)) :
    (btInsert m k v).Pairwise (fun p q => strLt p.1 q.1 = true) := by
  induction m with
  | nil => simp [btInsert]
  | cons p rest ih =>
    rcases p with ⟨k1, v1⟩
    rw [btInsert]
    rcases List.pairwise_cons.mp hs with ⟨hhead, htail⟩
    by_cases hlt : strLt k k1
    · rw [if_pos hlt]
      refine List.pairwise_cons.mpr ⟨?_, hs⟩
      intro q hq
      rcases List.mem_cons.mp hq with rfl | hq'
      · exact hlt
      · exact strLt_trans hlt (hhead q hq')
    · rw [if_neg hlt]
      by_cases heq : k == k1
      · rw [if_pos heq]
        have heq2 : k = k1 := by simpa using heq
        subst heq2
        exact List.pairwise_cons.mpr ⟨hhead, htail⟩
      · rw [if_neg heq]
        have hne : k ≠ k1 := by simpa using heq
        refine List.pairwise_cons.mpr ⟨?_, ih htail⟩
        intro q hq
        have hq2 : q ∈ rest ∨ q = (k, v) := by
          clear ih hs hhead htail
          induction rest with
          | nil => simpa [btInsert] using hq
          | cons r rs ihr =>
            rw [btInsert] at hq
            by_cases h1 : strLt k r.1
            · rw [if_pos h1] at hq
              rcases List.mem_cons.mp hq with rfl | hq'
              · exact Or.inr rfl
              · exact Or.inl hq'
            · rw [if_neg h1] at hq
              by_cases h2 : k == r.1
              · rw [if_pos h2] at hq
                rcases List.mem_cons.mp hq with rfl | hq'
                · exact Or.inr rfl
                · exact Or.inl (List.mem_cons_of_mem r hq')
              · rw [if_neg h2] at hq
                rcases List.mem_cons.mp hq with rfl | hq'
                · exact Or.inl (List.mem_cons_self _ _)
                · rcases ihr hq' with h | h
                  · exact Or.inl (List.mem_cons_of_mem r h)
                  · exact Or.inr h
        rcases hq2 with hq' | rfl
        · exact hhead q hq'
        · have hk1k : strLt k1 k = true := by
            cases hlt2 : strLt k1 k with
            | true => rfl
            | false =>
              exact absurd (strLt_false_antisymm
                (Bool.of_not_eq_true hlt) hlt2) (fun hh => hne hh)
          exact hk1k

theorem foldl_btInsert_sorted :
    ∀ (pairs : List (Nat × String)) (m0 : MetricIndices),
      m0.Pairwise (fun p q => strLt p.1 q.1 = true) →
      (pairs.foldl (fun m p => btInsert m p.2 p.1) m0).Pairwise
        (fun p q => strLt p.1 q.1 = true) := by
  intro pairs
  induction pairs with
  | nil => intro m0 h; exact h
  | cons p ps ih =>
    intro m0 h
    rw [List.foldl_cons]
    exact ih _ (btInsert_sorted p.2 p.1 h)

theorem buildMetricIndices_sorted (tagNames nodeNames costNames : List String) :
    (buildMetricIndices tagNames nodeNames costNames).Pairwise
      (fun p q => strLt p.1 q.1 = true) :=
  foldl_btInsert_sorted _ _ List.Pairwise.nil

theorem mem_iff_btGet? :
    ∀ {m : MetricIndices}, m.Pairwise (fun p q => strLt p.1 q.1 = true) →
      ∀ (k : String) (v : Nat), ((k, v) ∈ m ↔ btGet? m k = some v) := by
  intro m
  induction m with
  | nil =>
    intro _ k v
    rw [btGet?_nil]
    simp
  | cons p rest ih =>
    intro hs k v
    rcases p with ⟨k1, v1⟩
    rcases List.pairwise_cons.mp hs with ⟨hhead, htail⟩
    rw [btGet?_cons]
    constructor
    · intro hmem
      rcases List.mem_cons.mp hmem with heq | hmem'
      · injection heq with h1 h2
        rw [if_pos h1.symm, h2]
      · by_cases h1 : k1 = k
        · subst h1
          have := hhead (k1, v) hmem'
          rw [strLt_irrefl] at this
          exact absurd this (by simp)
        · rw [if_neg h1]
          exact (ih htail k v).mp hmem'
    · intro hget
      by_cases h1 : k1 = k
      · rw [if_pos h1] at hget
        injection hget with h2
        subst h1; subst h2
        exact List.mem_cons_self _ _
      · rw [if_neg h1] at hget
        exact List.mem_cons_of_mem _ ((ih htail k v).mpr hget)

theorem omapM_eq_map {α β : Type} (f : α → Option β) (g : α → β) :
    ∀ xs : List α, (∀ x ∈ xs, f x = some (g x)) →
      omapM f xs = some (xs.map g) := by
  intro xs
  induction xs with
  | nil => intro _; rfl
  | cons x xs ih =>
    intro h
    rw [omapM, h x (List.mem_cons_self x xs),
      ih (fun a ha => h a (List.mem_cons_of_mem x ha))]
    rfl

/-- The edge of the C9 counterexample and witness: cost vector `[10, 20]`. -/
def c9edge : Edge := { source := 0, dest := 1, costs := [F64.fin 10, F64.fin 20] }

/-- The emission claim C9 makes, written from the claim: the cost components
in Metric Index slot order — position order of the registered metrics,
tag then node then cost — excluding the internal set. -/
def c9SlotOrderEmission (e : Edge) (tagNames nodeNames costNames : List String)
    (internalOnly : List String) : Option (List F64) :=
  omapM (fun p => e.costs.get? p.1)
    (((tagNames ++ nodeNames ++ costNames).enum).filter
      (fun p => !(internalOnly.contains p.2)))

/-- C9, counterexample: `Edge::costs` walks the `BTreeMap` in ascending name
order, not slot order. With a tag metric `Speed` (slot 0) and a node metric
`Distance_` (slot 1), and cost vector `[10, 20]`, the emitted vector is
`[20, 10]` — the reverse of the slot order the claim asserts. -/
theorem c9_counterexample :
    costsOut c9edge (buildMetricIndices ["Speed"] ["Distance_"] []) [] =
      some [F64.fin 20, F64.fin 10] ∧
    c9SlotOrderEmission c9edge ["Speed"] ["Distance_"] [] [] =
      some [F64.fin 10, F64.fin 20] ∧
    costsOut c9edge (buildMetricIndices ["Speed"] ["Distance_"] []) [] ≠
      c9SlotOrderEmission c9edge ["Speed"] ["Distance_"] [] [] :=
  ⟨by decide, by decide, by decide⟩

/-- C9, amended: `Edge::costs` emits one component per registered
non-internal metric, read from exactly that metric's registered slot, but
in ascending metric-name order (the `BTreeMap` iteration order) rather than
slot order: the built index is strictly name-sorted, its entries pair each
registered name with its registration slot, and the emission maps the
name-sorted non-internal entries to their slot values. -/
theorem c9_emission_in_name_order (tagNames nodeNames costNames
    internalOnly : List String) (e : Edge)
    (hnd : (tagNames ++ nodeNames ++ costNames).Nodup)
    (hb : ∀ p ∈ buildMetricIndices tagNames nodeNames costNames,
      p.2 < e.costs.length) :
    ((buildMetricIndices tagNames nodeNames costNames).Pairwise
      (fun p q => strLt p.1 q.1 = true)) ∧
    (∀ k i, (k, i) ∈ buildMetricIndices tagNames nodeNames costNames ↔
      (tagNames ++ nodeNames ++ costNames)[i]? = some k) ∧
    costsOut e (buildMetricIndices tagNames nodeNames costNames) internalOnly =
      some (((buildMetricIndices tagNames nodeNames costNames).filter
        (fun p => !(internalOnly.contains p.1))).map
          (fun p => e.costs.getD p.2 (F64.fin 0))) := by
  refine ⟨buildMetricIndices_sorted _ _ _, ?_, ?_⟩
  · intro k i
    rw [mem_iff_btGet? (buildMetricIndices_sorted _ _ _) k i]
    exact buildIndices_get _ _ _ hnd k i
  · rw [costsOut]
    refine omapM_eq_map _ _ _ (fun p hp => ?_)
    have hp2 : p ∈ buildMetricIndices tagNames nodeNames costNames :=
      List.mem_of_mem_filter hp
    have hlt := hb p hp2
    rw [List.get?_eq_getElem?]
    cases hq : e.costs[p.2]? with
    | none =>
      rw [List.getElem?_eq_none_iff] at hq
      omega
    | some a =>
      rw [List.getD_eq_getElem?_getD, hq]
      rfl

/-- C9, witness: the amended theorem applied to the concrete two-metric
index of the counterexample, with `Speed` marked internal: only the
`Distance_` component (slot 1) is emitted. -/
theorem c9_witness :
    (∀ p ∈ buildMetricIndices ["Speed"] ["Distance_"] [],
      p.2 < c9edge.costs.length) ∧
    costsOut c9edge (buildMetricIndices ["Speed"] ["Distance_"] []) ["Speed"] =
      some (((buildMetricIndices ["Speed"] ["Distance_"] []).filter
        (fun p => !((["Speed"] : List String).contains p.1))).map
          (fun p => c9edge.costs.getD p.2 (F64.fin 0))) :=
  ⟨by decide,
    (c9_emission_in_name_order ["Speed"] ["Distance_"] [] ["Speed"] c9edge
      (by decide) (by decide)).2.2⟩

/-! ### Ways referencing absent nodes (claim C2) -/

/-- The single retained node of the C2 counterexample. -/
def c2node : Node := { osm_id := 1, lat := 0, long := 0 }

/-- The C2 counterexample edge: its way also referenced node 2, which is
absent from the extract. -/
def c2edge : Edge := { source := 1, dest := 2, costs := [] }

/-- C2, counterexample: with no bounding geometry configured, a way
referencing a node absent from the extract is not silently dropped — the
renaming pass indexes the node map with the missing id and panics, so the
load aborts instead of completing normally. -/
theorem c2_counterexample :
    loadGraphPost trivialLoader false [c2node] [c2edge] = none := by decide

/-- C2, amended: when a bounding geometry is configured, edges whose way
referenced a node absent from the extract are silently dropped by the
endpoint re-filtering (exactly those edges with a missing endpoint), and
the load completes normally — stated for loaders that register no node or
cost metrics, as every loader in this repository does. Without a geometry
that re-filtering is skipped and the rename lookup panics
(`c2_counterexample`). -/
theorem c2_geometry_drops_absent_node_edges (l : LoaderModel)
    (hn : l.nodeMetrics = []) (hc : l.costMetrics = [])
    (nodes : List Node) (edges : List Edge) :
    (∀ e ∈ filterEdgesByNodes nodes edges,
      (nodeMap nodes e.source).isSome ∧ (nodeMap nodes e.dest).isSome) ∧
    (∀ e ∈ edges, e ∉ filterEdgesByNodes nodes edges →
      nodeMap nodes e.source = none ∨ nodeMap nodes e.dest = none) ∧
    (∃ out, loadGraphPost l true nodes edges = some (nodes, out)) := by
  refine ⟨?_, ?_, ?_⟩
  · intro e he
    have := List.of_mem_filter he
    simp only [Bool.and_eq_true] at this
    exact ⟨this.1, this.2⟩
  · intro e _ hout
    by_cases hs : (nodeMap nodes e.source).isSome
    · by_cases hd : (nodeMap nodes e.dest).isSome
      · exfalso
        apply hout
        rw [filterEdgesByNodes, List.mem_filter]
        refine ⟨‹e ∈ edges›, by simp [hs, hd]⟩
      · exact Or.inr (Option.not_isSome_iff_eq_none.mp hd)
    · exact Or.inl (Option.not_isSome_iff_eq_none.mp hs)
  · rw [loadGraphPost]
    simp only [if_true]
    have hren : (renameNodeIds l nodes (filterEdgesByNodes nodes edges)).isSome := by
      rw [renameNodeIds]
      refine omapM_some_of_all_some _ _ (fun e he => ?_)
      have hmem := List.of_mem_filter he
      simp only [Bool.and_eq_true] at hmem
      rcases Option.isSome_iff_exists.mp hmem.1 with ⟨sp, hsp⟩
      rcases Option.isSome_iff_exists.mp hmem.2 with ⟨dp, hdp⟩
      rw [renameEdge, hsp, hdp, hn]
      simp [omapM, applyWrites]
    rcases Option.isSome_iff_exists.mp hren with ⟨edges2, hedges2⟩
    have hcost : calculateCostMetrics l edges2 = some edges2 := by
      rw [calculateCostMetrics]
      have : ∀ e ∈ edges2, applyCostMetricsToEdge l e = some e := by
        intro e _
        rw [applyCostMetricsToEdge, hc]
        simp
      calc omapM (applyCostMetricsToEdge l) edges2
          = some (edges2.map id) := omapM_eq_map _ id edges2 (by simpa using this)
        _ = some edges2 := by rw [List.map_id]
    refine ⟨deleteDominatedEdges (deleteDuplicateEdges edges2), ?_⟩
    rw [hedges2]
    simp only [Option.bind_eq_bind, Option.some_bind]
    rw [hcost]
    rfl

/-- C2, witness: the amended theorem at the counterexample input — with a
geometry configured the load completes and the edge to the absent node 2 is
dropped. -/
theorem c2_witness :
    (∀ e ∈ [c2edge], e ∉ filterEdgesByNodes [c2node] [c2edge] →
      nodeMap [c2node] e.source = none ∨ nodeMap [c2node] e.dest = none) ∧
    (∃ out, loadGraphPost trivialLoader true [c2node] [c2edge] =
      some ([c2node], out)) :=
  ⟨(c2_geometry_drops_absent_node_edges trivialLoader rfl rfl
      [c2node] [c2edge]).2.1,
    (c2_geometry_drops_absent_node_edges trivialLoader rfl rfl
      [c2node] [c2edge]).2.2⟩

/-! ### Deduplication (claim C8) -/

theorem F64.pcmp_swap : ∀ a b : F64, pcmp b a = (pcmp a b).map Ordering.swap := by
  intro a b
  cases a <;> cases b <;>
    first
    | rfl
    | (rename_i x y
       show pcmp (fin y) (fin x) = (pcmp (fin x) (fin y)).map Ordering.swap
       rw [pcmp, pcmp]
       rcases lt_trichotomy x y with h | h | h
       · rw [if_pos h, if_neg (not_lt.mpr (le_of_lt h)),
           if_neg (fun hh : y = x => absurd hh.symm (ne_of_lt h))]
         rfl
       · subst h
         rw [if_neg (lt_irrefl x), if_pos rfl]
         rfl
       · rw [if_pos h, if_neg (not_lt.mpr (le_of_lt h)),
           if_neg (fun hh : x = y => absurd hh.symm (ne_of_lt h))]
         rfl)

theorem F64.pcmpD_eq_iff {a b : F64} (ha : a ≠ nan) (hb : b ≠ nan) :
    (pcmp a b).getD Ordering.eq = Ordering.eq ↔ a = b := by
  cases a <;> cases b <;>
    first
    | (simp_all [pcmp]; done)
    | (rename_i x y
       simp only [pcmp, Option.getD_some]
       constructor
       · intro h
         rcases lt_trichotomy x y with hlt | heq | hgt
         · rw [if_pos hlt] at h; exact absurd h (by simp)
         · rw [heq]
         · rw [if_neg (not_lt.mpr (le_of_lt hgt)),
             if_neg (fun hh : x = y => absurd hh (ne_of_gt hgt))] at h
           exact absurd h (by simp)
       · intro h
         injection h with h2
         subst h2
         rw [if_neg (lt_irrefl x), if_pos rfl])

theorem F64.pcmpD_lt_trans {a b c : F64}
    (h1 : (pcmp a b).getD Ordering.eq = Ordering.lt)
    (h2 : (pcmp b c).getD Ordering.eq = Ordering.lt) :
    (pcmp a c).getD Ordering.eq = Ordering.lt := by
  cases a <;> cases b <;> cases c <;>
    first
    | (simp_all [pcmp]; done)
    | (rename_i x y z
       simp only [pcmp, Option.getD_some] at h1 h2 ⊢
       have hxy : x < y := by
         by_contra hxy
         rw [if_neg hxy] at h1
         split at h1 <;> simp_all
       have hyz : y < z := by
         by_contra hyz
         rw [if_neg hyz] at h2
         split at h2 <;> simp_all
       rw [if_pos (lt_trans hxy hyz)])

theorem F64.beq_iff_eq {a b : F64} (ha : a ≠ nan) (hb : b ≠ nan) :
    beq a b = true ↔ a = b := by
  rw [beq, decide_eq_true_eq]
  constructor
  · intro h
    exact (pcmpD_eq_iff ha hb).mp (by rw [h]; rfl)
  · intro h
    subst h
    cases a with
    | fin x =>
      show pcmp (fin x) (fin x) = some Ordering.eq
      rw [pcmp, if_neg (lt_irrefl x), if_pos rfl]
    | inf => rfl
    | neginf => rfl
    | nan => exact absurd rfl ha

theorem cmpNat_swap (a b : Nat) : cmpNat b a = (cmpNat a b).swap := by
  rw [cmpNat, cmpNat]
  rcases Nat.lt_trichotomy a b with h | h | h
  · rw [if_pos h, if_neg (Nat.not_lt.mpr (Nat.le_of_lt h)),
      if_neg (fun hh : b = a => absurd hh.symm (Nat.ne_of_lt h))]
    rfl
  · subst h
    rw [if_neg (Nat.lt_irrefl a), if_pos rfl]
    rfl
  · rw [if_pos h, if_neg (Nat.not_lt.mpr (Nat.le_of_lt h)),
      if_neg (fun hh : a = b => absurd hh.symm (Nat.ne_of_lt h))]
    rfl

theorem cmpNat_eq_iff {a b : Nat} : cmpNat a b = Ordering.eq ↔ a = b := by
  rw [cmpNat]
  by_cases h1 : a < b
  · rw [if_pos h1]
    constructor
    · intro h; exact absurd h (by simp)
    · intro h; omega
  · rw [if_neg h1]
    by_cases h2 : a = b
    · rw [if_pos h2]
      simp [h2]
    · rw [if_neg h2]
      constructor
      · intro h; exact absurd h (by simp)
      · intro h; exact absurd h h2

theorem cmpNat_lt_trans {a b c : Nat} (h1 : cmpNat a b = Ordering.lt)
    (h2 : cmpNat b c = Ordering.lt) : cmpNat a c = Ordering.lt := by
  rw [cmpNat] at h1 h2 ⊢
  by_cases hab : a < b
  · by_cases hbc : b < c
    · rw [if_pos (Nat.lt_trans hab hbc)]
    · rw [if_neg hbc] at h2
      split at h2 <;> simp_all
  · rw [if_neg hab] at h1
    split at h1 <;> simp_all

/-- Cost vectors of width `n` with no NaN component: the comparator of
`delete_duplicate_edges` is only consistent on such edges. -/
def WfEdge (n : Nat) (e : Edge) : Prop :=
  e.costs.length = n ∧ ∀ c ∈ e.costs, c ≠ F64.nan

instance (n : Nat) (e : Edge) : Decidable (WfEdge n e) := by
  unfold WfEdge
  infer_instance

theorem costsCmp_swap : ∀ as bs : List F64, costsCmp bs as = (costsCmp as bs).swap := by
  intro as
  induction as with
  | nil => intro bs; cases bs <;> rfl
  | cons a as ih =>
    intro bs
    cases bs with
    | nil => rfl
    | cons b bs =>
      rw [costsCmp, costsCmp, F64.pcmp_swap a b]
      cases hp : F64.pcmp a b with
      | none => simpa using ih bs
      | some o =>
        cases o with
        | eq => simpa using ih bs
        | lt => rfl
        | gt => rfl

theorem costsCmp_refl : ∀ as : List F64, costsCmp as as = Ordering.eq := by
  intro as
  induction as with
  | nil => rfl
  | cons a as ih =>
    have h : (F64.pcmp a a).getD Ordering.eq = Ordering.eq := by
      cases a <;> simp [F64.pcmp]
    rw [costsCmp, h, ih]

theorem costsCmp_eq_iff :
    ∀ {as bs : List F64}, as.length = bs.length → (∀ c ∈ as, c ≠ F64.nan) →
      (∀ c ∈ bs, c ≠ F64.nan) → (costsCmp as bs = Ordering.eq ↔ as = bs) := by
  intro as
  induction as with
  | nil =>
    intro bs hlen _ _
    cases bs with
    | nil => simp [costsCmp]
    | cons b bs => simp at hlen
  | cons a as ih =>
    intro bs hlen hna hnb
    cases bs with
    | nil => simp at hlen
    | cons b bs =>
      have ha : a ≠ F64.nan := hna a (List.mem_cons_self a as)
      have hb : b ≠ F64.nan := hnb b (List.mem_cons_self b bs)
      rw [costsCmp]
      cases hd : (F64.pcmp a b).getD Ordering.eq with
      | eq =>
        have hab : a = b := (F64.pcmpD_eq_iff ha hb).mp hd
        subst hab
        rw [ih (by simpa using hlen)
          (fun c hc => hna c (List.mem_cons_of_mem a hc))
          (fun c hc => hnb c (List.mem_cons_of_mem a hc))]
        simp
      | lt =>
        have hab : a ≠ b := fun hh =>
          absurd ((F64.pcmpD_eq_iff ha hb).mpr hh) (by rw [hd]; simp)
        simp [hab]
      | gt =>
        have hab : a ≠ b := fun hh =>
          absurd ((F64.pcmpD_eq_iff ha hb).mpr hh) (by rw [hd]; simp)
        simp [hab]

theorem costsCmp_lt_trans :
    ∀ {as bs cs : List F64}, (∀ c ∈ as, c ≠ F64.nan) →
      (∀ c ∈ bs, c ≠ F64.nan) → (∀ c ∈ cs, c ≠ F64.nan) →
      costsCmp as bs = Ordering.lt → costsCmp bs cs = Ordering.lt →
      costsCmp as cs = Ordering.lt := by
  intro as
  induction as with
  | nil =>
    intro bs cs _ _ _ h1 h2
    cases bs with
    | nil => exact absurd h1 (by simp [costsCmp])
    | cons b bs =>
      cases cs with
      | nil => exact absurd h2 (by simp [costsCmp])
      | cons c cs => exact absurd h1 (by simp [costsCmp])
  | cons a as ih =>
    intro bs cs hna hnb hnc h1 h2
    cases bs with
    | nil => exact absurd h1 (by simp [costsCmp])
    | cons b bs =>
      cases cs with
      | nil => exact absurd h2 (by simp [costsCmp])
      | cons c cs =>
        have ha : a ≠ F64.nan := hna a (List.mem_cons_self a as)
        have hb : b ≠ F64.nan := hnb b (List.mem_cons_self b bs)
        have hc : c ≠ F64.nan := hnc c (List.mem_cons_self c cs)
        rw [costsCmp] at h1 h2 ⊢
        cases hd1 : (F64.pcmp a b).getD Ordering.eq with
        | gt => rw [hd1] at h1; exact absurd h1 (by simp)
        | lt =>
          cases hd2 : (F64.pcmp b c).getD Ordering.eq with
          | gt => rw [hd2] at h2; exact absurd h2 (by simp)
          | lt => rw [F64.pcmpD_lt_trans hd1 hd2]
          | eq =>
            have hbc : b = c := (F64.pcmpD_eq_iff hb hc).mp hd2
            subst hbc
            rw [hd1]
        | eq =>
          have hab : a = b := (F64.pcmpD_eq_iff ha hb).mp hd1
          subst hab
          rw [hd1] at h1
          have h1a : costsCmp as bs = Ordering.lt := h1
          cases hd2 : (F64.pcmp a c).getD Ordering.eq with
          | gt => rw [hd2] at h2; exact absurd h2 (by simp)
          | lt => rfl
          | eq =>
            rw [hd2] at h2
            have h2a : costsCmp bs cs = Ordering.lt := h2
            exact ih (fun q hq => hna q (List.mem_cons_of_mem a hq))
              (fun q hq => hnb q (List.mem_cons_of_mem a hq))
              (fun q hq => hnc q (List.mem_cons_of_mem c hq)) h1a h2a

theorem edgeCmp_swap (a b : Edge) : edgeCmp b a = (edgeCmp a b).swap := by
  rw [edgeCmp, edgeCmp, cmpNat_swap a.source b.source, cmpNat_swap a.dest b.dest,
    costsCmp_swap a.costs b.costs]
  cases cmpNat a.source b.source <;> cases cmpNat a.dest b.dest <;>
    cases costsCmp a.costs b.costs <;> rfl

theorem edgeLe_total (a b : Edge) : edgeLe a b = true ∨ edgeLe b a = true := by
  by_cases h : edgeCmp a b = Ordering.gt
  · right
    rw [edgeLe, decide_eq_true_eq, edgeCmp_swap, h]
    decide
  · left
    rw [edgeLe, decide_eq_true_eq]
    exact h

theorem edgeCmp_eq_iff {n : Nat} {a b : Edge} (ha : WfEdge n a) (hb : WfEdge n b) :
    edgeCmp a b = Ordering.eq ↔ a = b := by
  constructor
  · intro h
    rw [edgeCmp] at h
    cases hs : cmpNat a.source b.source with
    | lt => rw [hs] at h; exact absurd h (by simp)
    | gt => rw [hs] at h; exact absurd h (by simp)
    | eq =>
      rw [hs] at h
      cases hd : cmpNat a.dest b.dest with
      | lt => rw [hd] at h; exact absurd h (by simp)
      | gt => rw [hd] at h; exact absurd h (by simp)
      | eq =>
        rw [hd] at h
        have h2 : costsCmp a.costs b.costs = Ordering.eq := h
        have hcosts : a.costs = b.costs :=
          (costsCmp_eq_iff (ha.1.trans hb.1.symm) ha.2 hb.2).mp h2
        have hsrc : a.source = b.source := cmpNat_eq_iff.mp hs
        have hdst : a.dest = b.dest := cmpNat_eq_iff.mp hd
        cases a; cases b
        simp_all
  · intro h
    subst h
    rw [edgeCmp, cmpNat_eq_iff.mpr rfl, cmpNat_eq_iff.mpr rfl, costsCmp_refl]

theorem edgeCmp_lt_trans {n : Nat} {a b c : Edge} (ha : WfEdge n a)
    (hb : WfEdge n b) (hc : WfEdge n c) (h1 : edgeCmp a b = Ordering.lt)
    (h2 : edgeCmp b c = Ordering.lt) : edgeCmp a c = Ordering.lt := by
  rw [edgeCmp] at h1 h2 ⊢
  cases hs1 : cmpNat a.source b.source with
  | gt => rw [hs1] at h1; exact absurd h1 (by simp)
  | lt =>
    cases hs2 : cmpNat b.source c.source with
    | gt => rw [hs2] at h2; exact absurd h2 (by simp)
    | lt => rw [cmpNat_lt_trans hs1 hs2]
    | eq =>
      rw [cmpNat_eq_iff.mp hs2] at hs1
      rw [hs1]
  | eq =>
    rw [hs1] at h1
    have hseq : a.source = b.source := cmpNat_eq_iff.mp hs1
    cases hs2 : cmpNat b.source c.source with
    | gt => rw [hs2] at h2; exact absurd h2 (by simp)
    | lt => rw [hseq, hs2]
    | eq =>
      rw [hs2] at h2
      rw [hseq, hs2]
      cases hd1 : cmpNat a.dest b.dest with
      | gt => rw [hd1] at h1; exact absurd h1 (by simp)
      | lt =>
        cases hd2 : cmpNat b.dest c.dest with
        | gt => rw [hd2] at h2; exact absurd h2 (by simp)
        | lt => rw [cmpNat_lt_trans hd1 hd2]
        | eq =>
          rw [cmpNat_eq_iff.mp hd2] at hd1
          rw [hd1]
      | eq =>
        rw [hd1] at h1
        have hdeq : a.dest = b.dest := cmpNat_eq_iff.mp hd1
        cases hd2 : cmpNat b.dest c.dest with
        | gt => rw [hd2] at h2; exact absurd h2 (by simp)
        | lt => rw [hdeq, hd2]
        | eq =>
          rw [hd2] at h2
          rw [hdeq, hd2]
          have h1c : costsCmp a.costs b.costs = Ordering.lt := h1
          have h2c : costsCmp b.costs c.costs = Ordering.lt := h2
          have := costsCmp_lt_trans ha.2 hb.2 hc.2 h1c h2c
          rw [this]

theorem edgeLe_iff (a b : Edge) :
    edgeLe a b = true ↔
      (edgeCmp a b = Ordering.lt ∨ edgeCmp a b = Ordering.eq) := by
  rw [edgeLe, decide_eq_true_eq]
  cases edgeCmp a b <;> simp

theorem edgeLe_trans {n : Nat} {a b c : Edge} (ha : WfEdge n a)
    (hb : WfEdge n b) (hc : WfEdge n c) (h1 : edgeLe a b = true)
    (h2 : edgeLe b c = true) : edgeLe a c = true := by
  rcases (edgeLe_iff a b).mp h1 with hl | he
  · rcases (edgeLe_iff b c).mp h2 with hl2 | he2
    · exact (edgeLe_iff a c).mpr (Or.inl (edgeCmp_lt_trans ha hb hc hl hl2))
    · have hbc : b = c := (edgeCmp_eq_iff hb hc).mp he2
      subst hbc
      exact (edgeLe_iff a b).mpr (Or.inl hl)
  · have hab : a = b := (edgeCmp_eq_iff ha hb).mp he
    subst hab
    exact h2

theorem zipBeq_iff :
    ∀ {as bs : List F64}, as.length = bs.length → (∀ c ∈ as, c ≠ F64.nan) →
      (∀ c ∈ bs, c ≠ F64.nan) →
      (((as.zip bs).all fun p => F64.beq p.1 p.2) = true ↔ as = bs) := by
  intro as
  induction as with
  | nil =>
    intro bs hlen _ _
    cases bs with
    | nil => simp
    | cons b bs => simp at hlen
  | cons a as ih =>
    intro bs hlen hna hnb
    cases bs with
    | nil => simp at hlen
    | cons b bs =>
      have ha : a ≠ F64.nan := hna a (List.mem_cons_self a as)
      have hb : b ≠ F64.nan := hnb b (List.mem_cons_self b bs)
      rw [List.zip_cons_cons, List.all_cons, Bool.and_eq_true,
        ih (by simpa using hlen)
          (fun c hc => hna c (List.mem_cons_of_mem a hc))
          (fun c hc => hnb c (List.mem_cons_of_mem b hc))]
      rw [F64.beq_iff_eq ha hb]
      simp

theorem edgeBeq_iff_eq {n : Nat} {a b : Edge} (ha : WfEdge n a)
    (hb : WfEdge n b) : edgeBeq a b = true ↔ a = b := by
  rw [edgeBeq, Bool.and_eq_true, Bool.and_eq_true,
    zipBeq_iff (ha.1.trans hb.1.symm) ha.2 hb.2]
  constructor
  · intro h
    rcases h with ⟨⟨h1, h2⟩, h3⟩
    cases a; cases b
    simp_all
  · intro h
    subst h
    simp

theorem mem_sortInsert {x y : Edge} :
    ∀ {l : List Edge}, y ∈ sortInsert x l ↔ y = x ∨ y ∈ l := by
  intro l
  induction l with
  | nil => simp [sortInsert]
  | cons b t ih =>
    rw [sortInsert]
    by_cases h : edgeLe x b = true
    · rw [if_pos h]
      simp
    · rw [if_neg h]
      simp only [List.mem_cons, ih]
      tauto

theorem mem_sortEdges {y : Edge} :
    ∀ {l : List Edge}, y ∈ sortEdges l ↔ y ∈ l := by
  intro l
  induction l with
  | nil => simp [sortEdges]
  | cons x xs ih =>
    rw [sortEdges, mem_sortInsert]
    simp [ih]

theorem sortInsert_pairwise {n : Nat} (x : Edge) :
    ∀ (l : List Edge), WfEdge n x → (∀ e ∈ l, WfEdge n e) →
      l.Pairwise (fun p q => edgeLe p q = true) →
      (sortInsert x l).Pairwise (fun p q => edgeLe p q = true) := by
  intro l
  induction l with
  | nil => intro _ _ _; simp [sortInsert]
  | cons b t ih =>
    intro hx hl hs
    rcases List.pairwise_cons.mp hs with ⟨hhead, htail⟩
    have hb : WfEdge n b := hl b (List.mem_cons_self b t)
    have hlt : ∀ e ∈ t, WfEdge n e := fun e he => hl e (List.mem_cons_of_mem b he)
    rw [sortInsert]
    by_cases h : edgeLe x b = true
    · rw [if_pos h]
      refine List.pairwise_cons.mpr ⟨?_, hs⟩
      intro y hy
      rcases List.mem_cons.mp hy with rfl | hy'
      · exact h
      · exact edgeLe_trans hx hb (hlt y hy') h (hhead y hy')
    · rw [if_neg h]
      have hbx : edgeLe b x = true := by
        rcases edgeLe_total x b with h1 | h1
        · exact absurd h1 h
        · exact h1
      refine List.pairwise_cons.mpr ⟨?_, ih hx hlt htail⟩
      intro y hy
      rcases mem_sortInsert.mp hy with rfl | hy'
      · exact hbx
      · exact hhead y hy'

theorem sortEdges_pairwise {n : Nat} :
    ∀ (l : List Edge), (∀ e ∈ l, WfEdge n e) →
      (sortEdges l).Pairwise (fun p q => edgeLe p q = true) := by
  intro l
  induction l with
  | nil => intro _; simp [sortEdges]
  | cons x xs ih =>
    intro hl
    rw [sortEdges]
    refine sortInsert_pairwise x (sortEdges xs)
      (hl x (List.mem_cons_self x xs))
      (fun e he => hl e (List.mem_cons_of_mem x (mem_sortEdges.mp he)))
      (ih (fun e he => hl e (List.mem_cons_of_mem x he)))

theorem mem_dedupScan {z : Edge} :
    ∀ {l : List Edge} {a : Edge}, z ∈ dedupScan a l → z ∈ l := by
  intro l
  induction l with
  | nil => intro a h; simpa [dedupScan] using h
  | cons b t ih =>
    intro a h
    rw [dedupScan] at h
    by_cases hb : edgeBeq a b = true
    · rw [if_pos hb] at h
      exact List.mem_cons_of_mem b (ih h)
    · rw [if_neg hb] at h
      rcases List.mem_cons.mp h with rfl | h'
      · exact List.mem_cons_self z t
      · exact List.mem_cons_of_mem b (ih h')

theorem dedupScan_pairwise_lt {n : Nat} :
    ∀ (l : List Edge) (a : Edge), WfEdge n a → (∀ e ∈ l, WfEdge n e) →
      (a :: l).Pairwise (fun p q => edgeLe p q = true) →
      (dedupScan a l).Pairwise (fun p q => edgeCmp p q = Ordering.lt) ∧
        (∀ z ∈ dedupScan a l, edgeCmp a z = Ordering.lt) := by
  intro l
  induction l with
  | nil =>
    intro a _ _ _
    exact ⟨List.Pairwise.nil, fun z hz => absurd hz (List.not_mem_nil z)⟩
  | cons b t ih =>
    intro a ha hl hs
    rcases List.pairwise_cons.mp hs with ⟨hheadA, htail⟩
    rcases List.pairwise_cons.mp htail with ⟨hheadB, htt⟩
    have hb : WfEdge n b := hl b (List.mem_cons_self b t)
    have hlt : ∀ e ∈ t, WfEdge n e := fun e he => hl e (List.mem_cons_of_mem b he)
    rw [dedupScan]
    by_cases hbeq : edgeBeq a b = true
    · rw [if_pos hbeq]
      have hab : a = b := (edgeBeq_iff_eq ha hb).mp hbeq
      subst hab
      exact ih a ha hlt (List.pairwise_cons.mpr ⟨hheadB, htt⟩)
    · rw [if_neg hbeq]
      have hab : a ≠ b := fun hh =>
        absurd ((edgeBeq_iff_eq ha hb).mpr hh) (by simp [hbeq])
      have hltab : edgeCmp a b = Ordering.lt := by
        rcases (edgeLe_iff a b).mp (hheadA b (List.mem_cons_self b t)) with h | h
        · exact h
        · exact absurd ((edgeCmp_eq_iff ha hb).mp h) hab
      rcases ih b hb hlt htail with ⟨hp, hbz⟩
      refine ⟨List.pairwise_cons.mpr ⟨hbz, hp⟩, ?_⟩
      intro z hz
      rcases List.mem_cons.mp hz with rfl | hz'
      · exact hltab
      · exact edgeCmp_lt_trans ha hb (hlt z (mem_dedupScan hz')) hltab (hbz z hz')

theorem mem_dedupEdges {z : Edge} :
    ∀ {l : List Edge}, z ∈ dedupEdges l → z ∈ l := by
  intro l h
  cases l with
  | nil => simpa [dedupEdges] using h
  | cons a rest =>
    rw [dedupEdges] at h
    rcases List.mem_cons.mp h with rfl | h'
    · exact List.mem_cons_self z rest
    · exact List.mem_cons_of_mem a (mem_dedupScan h')

theorem dedupEdges_pairwise_lt {n : Nat} (l : List Edge)
    (hl : ∀ e ∈ l, WfEdge n e)
    (hs : l.Pairwise (fun p q => edgeLe p q = true)) :
    (dedupEdges l).Pairwise (fun p q => edgeCmp p q = Ordering.lt) := by
  cases l with
  | nil => simp [dedupEdges]
  | cons a rest =>
    rw [dedupEdges]
    have ha : WfEdge n a := hl a (List.mem_cons_self a rest)
    have hrest : ∀ e ∈ rest, WfEdge n e := fun e he =>
      hl e (List.mem_cons_of_mem a he)
    rcases dedupScan_pairwise_lt rest a ha hrest hs with ⟨hp, haz⟩
    exact List.pairwise_cons.mpr ⟨haz, hp⟩

/-- C8, amended: provided every edge carries a NaN-free cost vector of the
loader's uniform width — as the pipeline produces — no two distinct edges
surviving `delete_duplicate_edges` are identical by the code's `PartialEq`
on `(source, dest, cost vector)`; with NaN components the sort comparator
collapses (`partial_cmp(..).unwrap_or(Equal)`) and identical edges can
survive apart. -/
theorem c8_dedup_no_identical_survivors (edges : List Edge) (n : Nat)
    (hw : ∀ e ∈ edges, WfEdge n e) :
    ∀ (i j : Nat) (a b : Edge), i < j →
      (deleteDuplicateEdges edges)[i]? = some a →
      (deleteDuplicateEdges edges)[j]? = some b → edgeBeq a b = false := by
  intro i j a b hij ha hb
  have hws : ∀ e ∈ sortEdges edges, WfEdge n e := fun e he =>
    hw e (mem_sortEdges.mp he)
  have hplt : (deleteDuplicateEdges edges).Pairwise
      (fun p q => edgeCmp p q = Ordering.lt) :=
    dedupEdges_pairwise_lt (sortEdges edges) hws (sortEdges_pairwise edges hw)
  have hia := List.getElem?_eq_some.mp ha
  have hjb := List.getElem?_eq_some.mp hb
  rcases hia with ⟨hi, hie⟩
  rcases hjb with ⟨hj, hje⟩
  have hrel := List.pairwise_iff_getElem.mp hplt i j hi hj hij
  rw [hie, hje] at hrel
  have hwa : WfEdge n a :=
    hw a (mem_sortEdges.mp (mem_dedupEdges (List.getElem?_mem ha)))
  have hwb : WfEdge n b :=
    hw b (mem_sortEdges.mp (mem_dedupEdges (List.getElem?_mem hb)))
  cases hbeq : edgeBeq a b with
  | false => rfl
  | true =>
    have hab : a = b := (edgeBeq_iff_eq hwa hwb).mp hbeq
    subst hab
    rw [(edgeCmp_eq_iff hwa hwa).mpr rfl] at hrel
    exact absurd hrel (by simp)

/-- The repeated edge of the C8 counterexample (it occurs at positions 0
and 2 of the surviving list). -/
def c8A : Edge := { source := 0, dest := 1, costs := [F64.fin 1] }

/-- The NaN edge separating the two copies in the C8 counterexample. -/
def c8B : Edge := { source := 0, dest := 1, costs := [F64.nan] }

/-- The input of the C8 counterexample. -/
def c8ex : List Edge := [c8A, c8B, c8A]

/-- C8, counterexample: a NaN cost makes `partial_cmp(..).unwrap_or(Equal)`
declare every pair equal, so the stable sort leaves `[A, NaN-edge, A]` in
place and `dedup` (which only compares against the last kept edge, and for
which the NaN edge equals nothing) removes nothing: the two copies of `A`
survive as distinct edges with identical `(source, dest, cost vector)`. -/
theorem c8_counterexample :
    deleteDuplicateEdges c8ex = c8ex ∧
    ¬ (∀ (i j : Nat) (a b : Edge), i < j →
        (deleteDuplicateEdges c8ex)[i]? = some a →
        (deleteDuplicateEdges c8ex)[j]? = some b → edgeBeq a b = false) := by
  refine ⟨by decide, fun h => ?_⟩
  exact absurd (h 0 2 c8A c8A (by decide) (by decide) (by decide)) (by decide)

/-- A third NaN-free edge for the C8 witness. -/
def c8C : Edge := { source := 0, dest := 1, costs := [F64.fin 2] }

/-- C8, witness: the amended theorem on a NaN-free list with a genuine
duplicate — deduplication leaves `[c8A, c8C]` and the two survivors are not
identical. -/
theorem c8_witness :
    (deleteDuplicateEdges [c8A, c8A, c8C])[0]? = some c8A ∧
      (deleteDuplicateEdges [c8A, c8A, c8C])[1]? = some c8C ∧
      edgeBeq c8A c8C = false :=
  ⟨by decide, by decide,
    c8_dedup_no_identical_survivors [c8A, c8A, c8C] 1 (by decide) 0 1 c8A c8C
      (by decide) (by decide) (by decide)⟩

end Osmtools
